import Mathlib

/-! # libROM `CAROM::Matrix`: a verification development

Shallow embedding of `class Matrix` (src/Matrix.h): its storage management
(`setSize`), its element access (`item`, `operator()`), the overloads of the
dense algebra kernels it defines inline, and models of the matrix product and
of the pivoted-QR row selector it declares.

Modelling conventions.

* `int` is a 32-bit two's-complement integer.  Values are carried as `Int`;
  the arithmetic the code performs on them (`*`, `+`) is `imul` / `iadd`,
  the exact result reduced into the `int` range.  Whenever the exact result
  fits in an `int` the two agree (`wrapInt_of_fits`, `imul_of_fits`).
* `double* d_mat` is an address into an explicit free store (`Heap`), or the
  null pointer (`none`).  `new double [n]` always succeeds and yields a block
  at an address that was never handed out before; `delete []` retires the
  block.
* The element type `double` is a parameter `α`: the members embedded here only
  move values, they never compute with them.
* `CAROM_ERROR` / `CAROM_ASSERT` terminate the process; a terminated call is
  an `Except.error`.
* Members whose bodies live in Matrix.C are not embedded from code: the
  kernels a wrapper calls are parameters, and the matrix product, the shape
  constructor and the pivoted-QR selector are modelled from the spec.  Each
  such definition says so in its doc comment.
* A signed `int` overflow has no defined behaviour in C++; the embedding
  shows the wrapped result, and the facts that need exact products carry a
  `fitsInt` hypothesis.
-/

namespace CAROM

/-! ## Machine integers -/

/-- Reduction of an exact integer into the range of a 32-bit `int`. -/
def wrapInt (x : Int) : Int := (x + 2147483648) % 4294967296 - 2147483648

/-- The `int` product `a*b` as the machine computes it. -/
def imul (a b : Int) : Int := wrapInt (a * b)

/-- The `int` sum `a+b` as the machine computes it. -/
def iadd (a b : Int) : Int := wrapInt (a + b)

/-- The exact value `x` is representable as an `int`. -/
def fitsInt (x : Int) : Prop := -2147483648 ≤ x ∧ x ≤ 2147483647

instance (x : Int) : Decidable (fitsInt x) := by
  unfold fitsInt; infer_instance

/-! ## Fatal errors -/

/-- The two ways a call terminates the process. -/
inductive Failure where
  /-- Termination: `CAROM_ERROR(msg)` was reached. -/
  | fatal (msg : String)
  /-- Termination: `CAROM_ASSERT(expr)` was evaluated with a false `expr`. -/
  | assertion (expr : String)
  /-- The call left defined behaviour, e.g. by dereferencing a null pointer. -/
  | undefined (what : String)
deriving DecidableEq, Repr

/-- Modelled from the spec: the macro `CAROM_ERROR` (its header is not part of
the sources at hand).  The spec describes it as fatal, "reported via an
assertion/abort-style mechanism": control never continues past it. -/
def CAROM_ERROR {β : Type} (msg : String) : Except Failure β :=
  .error (.fatal msg)

/-- Modelled from the spec: the macro `CAROM_ASSERT` (its header is not part of
the sources at hand).  The spec describes the checks as made "in debug
builds": with `debug = true` a false condition terminates the call, with
`debug = false` the macro expands to nothing. -/
def CAROM_ASSERT (debug : Bool) (cond : Bool) (expr : String) : Except Failure Unit :=
  if debug && !cond then .error (.assertion expr) else .ok ()

/-! ## The free store -/

/-- A block made by `new double [n]`: `n` cells, each `none` until written. -/
abbrev Block (α : Type) := List (Option α)

/-- The free store.  Address `a` designates `heap[a]`; the entry is `none` once
the block has been deleted. -/
abbrev Heap (α : Type) := List (Option (Block α))

/-- Expression `new double [n]`: a block of `n` unwritten cells at a fresh address. -/
def Heap.new {α : Type} (h : Heap α) (n : Int) : Heap α × Nat :=
  (h ++ [some (List.replicate n.toNat none)], h.length)

/-- Statement `delete [] p` for a non-null `p`. -/
def Heap.delete {α : Type} (h : Heap α) (p : Nat) : Heap α :=
  h.set p none

/-! ## The Matrix object -/

/-- The data members of `class Matrix`, in declaration order. -/
structure Matrix where
  /-- Field `double* d_mat`; `none` is the null pointer. -/
  d_mat : Option Nat
  d_num_rows : Int
  d_num_cols : Int
  d_alloc_size : Int
  d_distributed : Bool
  d_num_procs : Int
  d_owns_data : Bool
deriving DecidableEq, Repr

namespace Matrix

/-- Member `bool distributed() const`. -/
def distributed (m : Matrix) : Bool := m.d_distributed

/-- Member `int numRows() const`. -/
def numRows (m : Matrix) : Int := m.d_num_rows

/-- Member `int numColumns() const`. -/
def numColumns (m : Matrix) : Int := m.d_num_cols

/-- Member `void setSize(int num_rows, int num_cols)`.  The object and the free store
it may touch are passed in and returned. -/
def setSize {α : Type} (h : Heap α) (m : Matrix) (num_rows num_cols : Int) :
    Except Failure (Heap α × Matrix) :=
  let new_size := imul num_rows num_cols
  if new_size > m.d_alloc_size then
    if !m.d_owns_data then
      CAROM_ERROR "Can not reallocate externally owned storage."
    else
      let h1 := match m.d_mat with
        | some p => h.delete p
        | none => h
      let (h2, p) := h1.new new_size
      .ok (h2, { m with d_mat := some p, d_alloc_size := new_size,
                        d_num_rows := num_rows, d_num_cols := num_cols })
  else
    .ok (h, { m with d_num_rows := num_rows, d_num_cols := num_cols })

/-- The lvalue `base[index]` an accessor returns a reference to. -/
structure Ref where
  base : Option Nat
  index : Int
deriving DecidableEq, Repr

/-- Member `const double& item(int row, int col) const`. -/
def item_const (debug : Bool) (m : Matrix) (row col : Int) : Except Failure Ref := do
  CAROM_ASSERT debug (decide (0 ≤ row) && decide (row < m.numRows))
    "(0 <= row) && (row < numRows())"
  CAROM_ASSERT debug (decide (0 ≤ col) && decide (col < m.numColumns))
    "(0 <= col) && (col < numColumns())"
  return ⟨m.d_mat, iadd (imul row m.d_num_cols) col⟩

/-- Member `double& item(int row, int col)`. -/
def item (debug : Bool) (m : Matrix) (row col : Int) : Except Failure Ref := do
  CAROM_ASSERT debug (decide (0 ≤ row) && decide (row < m.numRows))
    "(0 <= row) && (row < numRows())"
  CAROM_ASSERT debug (decide (0 ≤ col) && decide (col < m.numColumns))
    "(0 <= col) && (col < numColumns())"
  return ⟨m.d_mat, iadd (imul row m.d_num_cols) col⟩

/-- Member `const double& operator() (int row, int col) const`. -/
def call_const (debug : Bool) (m : Matrix) (row col : Int) : Except Failure Ref :=
  item_const debug m row col

/-- Member `double& operator() (int row, int col)`. -/
def call (debug : Bool) (m : Matrix) (row col : Int) : Except Failure Ref :=
  item debug m row col

end Matrix

/-- Reading through a reference: the cell of the free store it designates, if
the reference points into a live block. -/
def Heap.read {α : Type} (h : Heap α) (r : Matrix.Ref) : Option (Option α) :=
  match r.base with
  | none => none
  | some p =>
    match h.get? p with
    | some (some b) => if 0 ≤ r.index then b.get? r.index.toNat else none
    | _ => none

/-! ## Dense algebra kernels: the overloads declared inline -/

/-- Modelled from the spec: the out-of-line fill forms of one kernel, whose
bodies (Matrix.C) are not part of the sources at hand.  The spec, §4.2: the
forms are "fill-an-existing-pointer (allocate-if-null, else resize), and
fill-an-existing-reference (caller pre-sizes, no internal reallocation)", all
"implemented atop one canonical body".  `σ` is the program state, `A` the
type of `this`, `B` of the operand and `R` of the result object. -/
structure Kernel (σ A B R : Type) where
  /-- Step `new R(...)` with the shape of the result of `this` and the operand. -/
  allocate : σ → A → B → Except Failure (σ × R)
  /-- Step `result->setSize(...)` to the shape of the result. -/
  resize : σ → A → B → R → Except Failure (σ × R)
  /-- The canonical body: checks the preconditions and fills a sized result. -/
  body : σ → A → B → R → Except Failure (σ × R)

namespace Kernel

variable {σ A B R : Type}

/-- Modelled from the spec: the fill-an-existing-reference form
`void f(const B& other, R& result) const`: the canonical body run on the
result the caller supplies. -/
def fill_ref (k : Kernel σ A B R) (s : σ) (this : A) (other : B) (result : R) :
    Except Failure (σ × R) :=
  k.body s this other result

/-- Modelled from the spec: the part of the fill-an-existing-pointer form that
precedes the canonical body, "allocate-if-null, else resize". -/
def size_result (k : Kernel σ A B R) (s : σ) (this : A) (other : B) (result : Option R) :
    Except Failure (σ × R) :=
  match result with
  | none => k.allocate s this other
  | some r => k.resize s this other r

/-- Modelled from the spec: the fill-an-existing-pointer form
`void f(const B& other, R*& result) const`: "allocate-if-null, else resize",
then the canonical body.  The pointer `result` is passed in and returned. -/
def fill_ptr (k : Kernel σ A B R) (s : σ) (this : A) (other : B) (result : Option R) :
    Except Failure (σ × Option R) := do
  let (s1, r) ← k.size_result s this other result
  let (s2, r') ← k.body s1 this other r
  return (s2, some r')

end Kernel

/-- The out-of-line kernels the inline overloads of `Matrix.h` call.  `V` is
the type of `Vector` objects (Vector.h is not part of the sources at hand);
`inverse` has no operand. -/
structure Kernels (α V : Type) where
  mult : Kernel (Heap α) Matrix Matrix Matrix
  mult_vec : Kernel (Heap α) Matrix V V
  transposeMult : Kernel (Heap α) Matrix Matrix Matrix
  transposeMult_vec : Kernel (Heap α) Matrix V V
  inverse : Kernel (Heap α) Matrix Unit Matrix

namespace Matrix

variable {α V : Type}

/-- Member `Matrix* mult(const Matrix& other) const`. -/
def mult (K : Kernels α V) (h : Heap α) (this other : Matrix) :
    Except Failure (Heap α × Option Matrix) := do
  let result : Option Matrix := none
  let (h', result) ← K.mult.fill_ptr h this other result
  return (h', result)

/-- Member `Matrix* mult(const Matrix* other) const`. -/
def mult_p (debug : Bool) (K : Kernels α V) (h : Heap α) (this : Matrix)
    (other : Option Matrix) : Except Failure (Heap α × Option Matrix) := do
  CAROM_ASSERT debug (other.isSome) "other != 0"
  match other with
  | some o => mult K h this o
  | none => .error (.undefined "*other")

/-- Member `Vector* mult(const Vector& other) const`. -/
def mult_vec (K : Kernels α V) (h : Heap α) (this : Matrix) (other : V) :
    Except Failure (Heap α × Option V) := do
  let result : Option V := none
  let (h', result) ← K.mult_vec.fill_ptr h this other result
  return (h', result)

/-- Member `Vector* mult(const Vector* other) const`. -/
def mult_vec_p (debug : Bool) (K : Kernels α V) (h : Heap α) (this : Matrix)
    (other : Option V) : Except Failure (Heap α × Option V) := do
  CAROM_ASSERT debug (other.isSome) "other != 0"
  match other with
  | some o => mult_vec K h this o
  | none => .error (.undefined "*other")

/-- Member `Matrix* transposeMult(const Matrix& other) const`. -/
def transposeMult (K : Kernels α V) (h : Heap α) (this other : Matrix) :
    Except Failure (Heap α × Option Matrix) := do
  let result : Option Matrix := none
  let (h', result) ← K.transposeMult.fill_ptr h this other result
  return (h', result)

/-- Member `Matrix* transposeMult(const Matrix* other) const`. -/
def transposeMult_p (debug : Bool) (K : Kernels α V) (h : Heap α) (this : Matrix)
    (other : Option Matrix) : Except Failure (Heap α × Option Matrix) := do
  CAROM_ASSERT debug (other.isSome) "other != 0"
  match other with
  | some o => transposeMult K h this o
  | none => .error (.undefined "*other")

/-- Member `Vector* transposeMult(const Vector& other) const`. -/
def transposeMult_vec (K : Kernels α V) (h : Heap α) (this : Matrix) (other : V) :
    Except Failure (Heap α × Option V) := do
  let result : Option V := none
  let (h', result) ← K.transposeMult_vec.fill_ptr h this other result
  return (h', result)

/-- Member `Vector* transposeMult(const Vector* other) const`. -/
def transposeMult_vec_p (debug : Bool) (K : Kernels α V) (h : Heap α) (this : Matrix)
    (other : Option V) : Except Failure (Heap α × Option V) := do
  CAROM_ASSERT debug (other.isSome) "other != 0"
  match other with
  | some o => transposeMult_vec K h this o
  | none => .error (.undefined "*other")

/-- Member `Matrix* inverse() const`. -/
def inverse (K : Kernels α V) (h : Heap α) (this : Matrix) :
    Except Failure (Heap α × Option Matrix) := do
  let result : Option Matrix := none
  let (h', result) ← K.inverse.fill_ptr h this () result
  return (h', result)

end Matrix

/-! ## The pivoted-QR selector

The bodies of `qrcp_pivots_transpose` and of the paths it dispatches to are in
Matrix.C, which is not part of the sources at hand; `Matrix.h` only declares
them.  This section models them from the spec, §3 and §4.3.

A matrix is seen through its row layout (`Layout`) and through the pivoting
norm of its rows: `norm chosen g` is the pivoting norm of global row `g` once
the rows in `chosen` have been eliminated, a quantity fixed by the logical
content of the matrix.  The values `β` only need to be comparable, and two
norms are equal when they are the same value.

The only precondition the model enforces is the documented one,
`pivots_requested` at most the total number of rows.  The spec also lists "a
matrix with zero rows on some path" as a violation without naming the path; no
path of this model rejects a matrix for having no rows. -/

/-- Modelled from the spec: how the rows of a matrix are held (§3).  An
undistributed matrix is a full copy on each of `num_procs` processes; a
distributed one gives process `r` the next `row_counts[r]` rows. -/
inductive Layout where
  | replicated (num_procs : Nat) (rows : Nat)
  | distributed (row_counts : List Nat)
deriving DecidableEq, Repr

namespace Layout

/-- Modelled from the spec: "the logical global row count is the sum of each
process's rows"; an undistributed matrix holds all of them on every process. -/
def totalRows : Layout → Nat
  | replicated _ rows => rows
  | distributed row_counts => row_counts.sum

/-- The number of processes of the communicator of the matrix. -/
def numProcs : Layout → Nat
  | replicated num_procs _ => num_procs
  | distributed row_counts => row_counts.length

/-- Modelled from the spec: `distributed()`. -/
def isDistributed : Layout → Bool
  | replicated _ _ => false
  | distributed _ => true

/-- Modelled from the spec: `balanced()`, "every process holds the same local
row count". -/
def balanced : Layout → Bool
  | replicated _ _ => true
  | distributed [] => true
  | distributed (n :: rest) => rest.all (fun c => c == n)

/-- The global index of the first row held by process `rank`. -/
def rowOffset (row_counts : List Nat) (rank : Nat) : Nat :=
  (row_counts.take rank).sum

/-- The global indices of the rows held by process `rank`. -/
def localRows (row_counts : List Nat) (rank : Nat) : List Nat :=
  (List.range (row_counts.getD rank 0)).map (fun i => rowOffset row_counts rank + i)

/-- Process `rank` physically holds global row `g`. -/
def holds : Layout → Nat → Nat → Prop
  | replicated num_procs rows, rank, g => rank < num_procs ∧ g < rows
  | distributed row_counts, rank, g =>
      rank < row_counts.length ∧ rowOffset row_counts rank ≤ g
        ∧ g < rowOffset row_counts rank + row_counts.getD rank 0

instance (l : Layout) (rank g : Nat) : Decidable (l.holds rank g) := by
  cases l <;> unfold holds <;> infer_instance

end Layout

/-- Modelled from the spec: what the collective reduction carries for one
candidate row, the triple "(value, global-row-index, owning-rank)". -/
structure Candidate (β : Type) where
  value : β
  row : Nat
  owner : Nat
deriving DecidableEq, Repr

section Selector

variable {β : Type} [LinearOrder β]

/-- Modelled from the spec: the selection policy of §4.3.  `a` is preferred
to `b` when its pivoting norm is larger, and on equal norms when its global
row index is lower. -/
def Candidate.beats (a b : Candidate β) : Bool :=
  decide (b.value < a.value) || (decide (a.value = b.value) && decide (a.row < b.row))

/-- The preferred one of a running winner and a next candidate. -/
def Candidate.best (winner c : Candidate β) : Candidate β :=
  if c.beats winner then c else winner

/-- Modelled from the spec: the reduction "to find the globally largest-norm
candidate", over the candidates at hand; `none` when there is none. -/
def reduceBest : List (Candidate β) → Option (Candidate β)
  | [] => none
  | c :: cs => some (cs.foldl Candidate.best c)

/-- The candidates a process offers: those of `rows` not yet chosen, each with
its pivoting norm and the rank `owner`. -/
def candidatesOf (norm : List Nat → Nat → β) (chosen : List Nat) (owner : Nat)
    (rows : List Nat) : List (Candidate β) :=
  (rows.filter (fun g => decide (g ∉ chosen))).map (fun g => ⟨norm chosen g, g, owner⟩)

/-- Modelled from the spec: one pivot step of the serial path.  The process
(`me`) holds every row and finds the winner locally. -/
def serialStep (norm : List Nat → Nat → β) (rows me : Nat) (chosen : List Nat) :
    Option (Candidate β) :=
  reduceBest (candidatesOf norm chosen me (List.range rows))

/-- Modelled from the spec: one pivot step of the distributed-unbalanced path.
Every process reduces its own rows to a triple (value, global row index,
owning rank); the collective reduction over the processes yields the winner. -/
def unbalancedStep (norm : List Nat → Nat → β) (row_counts : List Nat)
    (chosen : List Nat) : Option (Candidate β) :=
  reduceBest ((List.range row_counts.length).filterMap (fun rank =>
    reduceBest (candidatesOf norm chosen rank (Layout.localRows row_counts rank))))

/-- Modelled from the spec: one pivot step of the distributed-balanced path.
Each of `num_procs` processes holds `n` rows; local row `i` of process `rank`
is global row `rank*n + i`, so the reduction carries no owner and the owner of
the winning row is recovered as `row / n`. -/
def balancedStep (norm : List Nat → Nat → β) (num_procs n : Nat)
    (chosen : List Nat) : Option (Candidate β) :=
  (reduceBest ((List.range num_procs).filterMap (fun rank =>
    reduceBest (candidatesOf norm chosen 0
      ((List.range n).map (fun i => rank * n + i)))))).map
    (fun c => { c with owner := c.row / n })

/-- Modelled from the spec: the pivot loop, "this repeats for
`pivotsRequested` steps".  Entry `i` of the result is the pair
(`row_pivot[i]`, `row_pivot_owner[i]`). -/
def pivotLoop (step : List Nat → Option (Candidate β)) : Nat → List (Nat × Nat)
  | 0 => []
  | k + 1 =>
    let out := pivotLoop step k
    match step (out.map Prod.fst) with
    | some c => out ++ [(c.row, c.owner)]
    | none => out

/-- Modelled from the spec: `qrcp_pivots_transpose_serial`, the path for
`!distributed()`, run by process `me`.  More pivots than rows is fatal. -/
def qrcp_pivots_transpose_serial (norm : List Nat → Nat → β) (rows me : Nat)
    (pivots_requested : Int) : Except Failure (List (Nat × Nat)) :=
  if pivots_requested > rows then
    .error (.assertion "pivots_requested <= numRows()")
  else
    .ok (pivotLoop (serialStep norm rows me) pivots_requested.toNat)

/-- Modelled from the spec: `qrcp_pivots_transpose_distributed`, the path for
`distributed()`, which takes the balanced or the unbalanced variant according
to `balanced()`.  More pivots than total rows is fatal. -/
def qrcp_pivots_transpose_distributed (norm : List Nat → Nat → β)
    (row_counts : List Nat) (pivots_requested : Int) :
    Except Failure (List (Nat × Nat)) :=
  if pivots_requested > row_counts.sum then
    .error (.assertion "pivots_requested <= total rows")
  else if (Layout.distributed row_counts).balanced then
    .ok (pivotLoop (balancedStep norm row_counts.length (row_counts.headD 0))
      pivots_requested.toNat)
  else
    .ok (pivotLoop (unbalancedStep norm row_counts) pivots_requested.toNat)

/-- Modelled from the spec: `qrcp_pivots_transpose(row_pivot, row_pivot_owner,
pivots_requested)`, "internal dispatch is by data distribution".  The result
lists the pairs (`row_pivot[i]`, `row_pivot_owner[i]`) the call has written,
in pivot order. -/
def qrcp_pivots_transpose (norm : List Nat → Nat → β) (layout : Layout) (me : Nat)
    (pivots_requested : Int) : Except Failure (List (Nat × Nat)) :=
  match layout with
  | .replicated _ rows => qrcp_pivots_transpose_serial norm rows me pivots_requested
  | .distributed row_counts =>
      qrcp_pivots_transpose_distributed norm row_counts pivots_requested

/-- The selection policy as a linear order: candidates compare by decreasing
pivoting norm, then by increasing global row index. -/
def Candidate.key (c : Candidate β) : Lex (βᵒᵈ × Nat) :=
  toLex (OrderDual.toDual c.value, c.row)

/-- What one pivot step has to deliver on a matrix of `rows` rows: as long as
a row is left, it returns a row that is left, with its pivoting norm, held by
the owner it names (`owner_ok`), such that no row left has a larger norm and
none with the same norm has a lower global index. -/
def StepSpec (norm : List Nat → Nat → β) (rows : Nat) (owner_ok : Nat → Nat → Prop)
    (step : List Nat → Option (Candidate β)) : Prop :=
  ∀ chosen : List Nat, (∃ g, g < rows ∧ g ∉ chosen) →
    ∃ c, step chosen = some c ∧ c.row < rows ∧ c.row ∉ chosen
      ∧ c.value = norm chosen c.row ∧ owner_ok c.owner c.row
      ∧ ∀ j, j < rows → j ∉ chosen →
          norm chosen j ≤ c.value ∧ (norm chosen j = c.value → c.row ≤ j)

end Selector

/-! ## Stores through a reference, sequences of resizes -/

/-- Storing `v` through a reference: the cell it designates takes the value
`v`.  The result is `none` when the reference designates no cell of a live
block, in which case the store has no defined behaviour. -/
def Heap.store {α : Type} (h : Heap α) (r : Matrix.Ref) (v : α) : Option (Heap α) :=
  match r.base with
  | none => none
  | some p =>
    match h.get? p with
    | some (some b) =>
      if 0 ≤ r.index ∧ r.index.toNat < b.length then
        some (h.set p (some (b.set r.index.toNat (some v))))
      else none
    | _ => none

namespace Matrix

/-- The statement `item(row, col) = v;` on a matrix: the non-const accessor
yields a reference and the value is stored through it.  The object is returned
along with the free store, as the accessor is a non-const member. -/
def assign {α : Type} (debug : Bool) (h : Heap α) (m : Matrix) (row col : Int) (v : α) :
    Except Failure (Heap α × Matrix) := do
  let r ← m.item debug row col
  match h.store r v with
  | some h' => return (h', m)
  | none => .error (.undefined "store outside the buffer")

/-- A sequence of `setSize` calls on one matrix, given by the argument pairs
(`num_rows`, `num_cols`); it ends at the first call that fails. -/
def setSizes {α : Type} (h : Heap α) (m : Matrix) :
    List (Int × Int) → Except Failure (Heap α × Matrix)
  | [] => .ok (h, m)
  | (num_rows, num_cols) :: rest =>
    match m.setSize h num_rows num_cols with
    | .ok (h', m') => setSizes h' m' rest
    | .error e => .error e

end Matrix

/-- The largest `int` product among the argument pairs of a sequence of
`setSize` calls, starting from `start`. -/
def largestRequest (start : Int) (shapes : List (Int × Int)) : Int :=
  shapes.foldl (fun acc s => max acc (imul s.1 s.2)) start

/-! ## The product kernel

The body of `mult(const Matrix&, Matrix*&)` is in Matrix.C, which is not part
of the sources at hand.  This section models it from the spec (§3, §4.2) and
from the contract `Matrix.h` documents for it.  The arithmetic of `double` is
a parameter: the operations `+`, `*` and the constant `0` of `α`, of which no
law is assumed. -/

/-- Modelled from the spec: a violated precondition of a kernel is "a
precondition failure, not a recoverable error" (§4.2), "fatal, reported via an
assertion/abort-style mechanism" (§7). -/
def precondition (cond : Bool) (expr : String) : Except Failure Unit :=
  if cond then .ok () else .error (.assertion expr)

/-- The value of element (`row`, `col`) as a const access reads it: `none`
when the reference designates no cell, or a cell that was never written. -/
def Matrix.value {α : Type} (h : Heap α) (m : Matrix) (row col : Int) : Option α :=
  match m.item_const false row col with
  | .ok r => (h.read r).join
  | .error _ => none

/-- The sum over `k < n` of `a k * b k`, accumulated from `0` in increasing
`k`; `none` as soon as a term has no value. -/
def dot {α : Type} [Add α] [Mul α] [Zero α] (n : Nat) (a b : Nat → Option α) : Option α :=
  (List.range n).foldl
    (fun acc k =>
      match acc, a k, b k with
      | some s, some x, some y => some (s + x * y)
      | _, _, _ => none)
    (some 0)

/-- Storing the values `vals` into the leading cells of the block at `base`.
The result is `none` when there is something to store and `base` designates no
live block with that many cells. -/
def Heap.fill {α : Type} (h : Heap α) (base : Option Nat) (vals : List (Option α)) :
    Option (Heap α) :=
  match vals with
  | [] => some h
  | _ :: _ =>
    match base with
    | none => none
    | some p =>
      match h.get? p with
      | some (some b) =>
        if vals.length ≤ b.length then
          some (h.set p (some (vals ++ b.drop vals.length)))
        else none
      | _ => none

/-- Modelled from the spec: the constructor `Matrix(int num_rows, int
num_cols, bool distributed)`, whose body is not part of the sources at hand.
`Matrix.h` documents its preconditions, `num_rows > 0` and `num_cols > 0`, and
a violated precondition is fatal (spec §7).  The spec, §3: "constructed ... by
shape (uninitialized values)", owning its storage.  `num_procs` is the number
of processes being run on. -/
def Matrix.create {α : Type} (num_procs : Int) (h : Heap α) (num_rows num_cols : Int)
    (distributed : Bool) : Except Failure (Heap α × Matrix) := do
  precondition (decide (num_rows > 0)) "num_rows > 0"
  precondition (decide (num_cols > 0)) "num_cols > 0"
  Matrix.setSize h
    { d_mat := none, d_num_rows := 0, d_num_cols := 0, d_alloc_size := 0,
      d_distributed := distributed, d_num_procs := num_procs, d_owns_data := true }
    num_rows num_cols

/-- The block at `base` is live and has at least `n` cells, or no cell is asked
for. -/
def Heap.hasCells {α : Type} (h : Heap α) (base : Option Nat) (n : Nat) : Bool :=
  n == 0 ||
    match base with
    | none => false
    | some p =>
      match h.get? p with
      | some (some b) => decide (n ≤ b.length)
      | _ => false

/-- Every element (`i`, `k`) with `i < rows` and `k < cols` is designated by a
reference to a cell of a live block: a load of it has a defined behaviour. -/
def Matrix.loadable {α : Type} (h : Heap α) (m : Matrix) (rows cols : Nat) : Bool :=
  (List.range rows).all (fun i =>
    (List.range cols).all (fun k =>
      match m.item_const false (i : Int) (k : Int) with
      | .ok r => (h.read r).isSome
      | .error _ => false))

/-- The matrix is a well-formed object of the free store `h`: its capacity is
an `int` that bounds `d_num_rows * d_num_cols`, and its buffer is a live block
of at least `d_alloc_size` cells, or null when the capacity is not positive. -/
def Matrix.wellFormed {α : Type} (h : Heap α) (m : Matrix) : Bool :=
  decide (m.d_num_rows * m.d_num_cols ≤ m.d_alloc_size)
    && decide (fitsInt m.d_alloc_size)
    && match m.d_mat with
       | none => decide (m.d_alloc_size ≤ 0)
       | some p =>
         match h.get? p with
         | some (some b) => decide (m.d_alloc_size ≤ (b.length : Int))
         | _ => false

section Product

variable {α : Type} [Add α] [Mul α] [Zero α]

/-- Modelled from the spec: the entries of the product of `this` and `other`
in row-major order.  Entry (`i`, `j`), at position `i * other.numColumns() +
j`, is the sum over `k` of `this(i, k) * other(k, j)`. -/
def productValues (h : Heap α) (this other : Matrix) : List (Option α) :=
  (List.range (this.numRows.toNat * other.numColumns.toNat)).map (fun idx =>
    dot this.numColumns.toNat
      (fun k => this.value h ((idx / other.numColumns.toNat : Nat) : Int) k)
      (fun k => other.value h k ((idx % other.numColumns.toNat : Nat) : Int)))

/-- Modelled from the spec: the canonical body of `mult` on matrices.  Its
preconditions are those of `Matrix.h` (`result.distributed() ==
distributed()`, `!other.distributed()`, `numColumns() == other.numRows()`).
The body stores `numRows() * other.numColumns()` elements into the result and,
when there is any, loads every element of `this` and of `other`: a store or a
load through a reference that designates no cell leaves defined behaviour.
Otherwise the entries of the product are stored into the sized result. -/
def multBody (h : Heap α) (this other result : Matrix) :
    Except Failure (Heap α × Matrix) := do
  precondition (result.distributed == this.distributed)
    "result.distributed() == distributed()"
  precondition (!other.distributed) "!other.distributed()"
  precondition (decide (this.numColumns = other.numRows))
    "numColumns() == other.numRows()"
  if !(h.hasCells result.d_mat (this.numRows.toNat * other.numColumns.toNat)) then
    .error (.undefined "store outside the result buffer")
  else if !(this.numRows.toNat * other.numColumns.toNat == 0
      || (this.loadable h this.numRows.toNat this.numColumns.toNat
          && other.loadable h this.numColumns.toNat other.numColumns.toNat)) then
    .error (.undefined "load outside an operand buffer")
  else
    match h.fill result.d_mat (productValues h this other) with
    | some h' => return (h', result)
    | none => .error (.undefined "store outside the result buffer")

/-- Modelled from the spec: the kernel `mult` on matrices.  A null result is
allocated with the shape `numRows() x other.numColumns()` and the distribution
of `this` (§4.2, "distributed | undistributed | distributed"), an existing one
is resized to that shape. -/
def multKernel : Kernel (Heap α) Matrix Matrix Matrix where
  allocate h this other :=
    Matrix.create this.d_num_procs h this.numRows other.numColumns this.distributed
  resize h this other result := result.setSize h this.numRows other.numColumns
  body := multBody

end Product

/-- A kernel that is not modelled: each of its steps leaves defined
behaviour. -/
def Kernel.absent {σ A B R : Type} : Kernel σ A B R where
  allocate _ _ _ := .error (.undefined "kernel not modelled")
  resize _ _ _ _ := .error (.undefined "kernel not modelled")
  body _ _ _ _ := .error (.undefined "kernel not modelled")

/-! ## Sample states -/

/-- A free store with one live block of six values at address 0. -/
def sampleHeap : Heap Int :=
  [some [some 11, some 12, some 13, some 21, some 22, some 23]]

/-- A 2 x 3 matrix over the block at address 0, which it does not own. -/
def sampleBorrowed : Matrix :=
  { d_mat := some 0, d_num_rows := 2, d_num_cols := 3, d_alloc_size := 6,
    d_distributed := false, d_num_procs := 1, d_owns_data := false }

/-- A 2 x 3 matrix over the block at address 0, which it owns. -/
def sampleOwned : Matrix :=
  { d_mat := some 0, d_num_rows := 2, d_num_cols := 3, d_alloc_size := 6,
    d_distributed := false, d_num_procs := 1, d_owns_data := true }

/-- Pivoting norms of a five-row matrix in which rows 1, 2 and 4 tie for the
largest norm at every step. -/
def sampleNorm : List Nat → Nat → Nat :=
  fun _ g => [3, 7, 7, 1, 7].getD g 0

/-- Pivoting norms of a matrix whose rows are all identical. -/
def sampleFlatNorm : List Nat → Nat → Nat :=
  fun _ _ => 4

/-- A free store with two live blocks: six values at address 0, six at 1. -/
def sampleHeap2 : Heap Int :=
  [some [some 1, some 2, some 3, some 4, some 5, some 6],
   some [some 1, some 0, some 0, some 1, some 2, some 3]]

/-- The 2 x 3 matrix over the block at address 0 of `sampleHeap2`. -/
def sampleLeft : Matrix :=
  { d_mat := some 0, d_num_rows := 2, d_num_cols := 3, d_alloc_size := 6,
    d_distributed := true, d_num_procs := 2, d_owns_data := true }

/-- The undistributed 3 x 2 matrix over the block at address 1 of
`sampleHeap2`. -/
def sampleRight : Matrix :=
  { d_mat := some 1, d_num_rows := 3, d_num_cols := 2, d_alloc_size := 6,
    d_distributed := false, d_num_procs := 2, d_owns_data := true }

/-- Kernels over `Int` of which only the matrix product is modelled. -/
def sampleKernels : Kernels Int Unit :=
  { mult := multKernel, mult_vec := Kernel.absent, transposeMult := Kernel.absent,
    transposeMult_vec := Kernel.absent, inverse := Kernel.absent }

/-- An empty 0 x 3 matrix, as `setSize(0, 3)` leaves a matrix built by the
empty constructor: no buffer, no capacity. -/
def sampleEmpty : Matrix :=
  { d_mat := none, d_num_rows := 0, d_num_cols := 3, d_alloc_size := 0,
    d_distributed := false, d_num_procs := 2, d_owns_data := true }

/-- An undistributed empty 3 x 0 matrix, as `setSize(3, 0)` leaves a matrix
built by the empty constructor: no buffer, no capacity. -/
def sampleNoColumns : Matrix :=
  { d_mat := none, d_num_rows := 3, d_num_cols := 0, d_alloc_size := 0,
    d_distributed := false, d_num_procs := 2, d_owns_data := true }

/-- A 2 x 3 record with a null buffer: it is not a well-formed matrix. -/
def sampleNull : Matrix :=
  { d_mat := none, d_num_rows := 2, d_num_cols := 3, d_alloc_size := 6,
    d_distributed := false, d_num_procs := 2, d_owns_data := true }

/-- A free store with two live blocks of 65536 values each. -/
def sampleHeapWide : Heap Int :=
  [some (List.replicate 65536 (some 1)), some (List.replicate 65536 (some 1))]

/-- The 65536 x 1 matrix over the block at address 0 of `sampleHeapWide`. -/
def sampleTall : Matrix :=
  { d_mat := some 0, d_num_rows := 65536, d_num_cols := 1, d_alloc_size := 65536,
    d_distributed := false, d_num_procs := 2, d_owns_data := true }

/-- The undistributed 1 x 65536 matrix over the block at address 1 of
`sampleHeapWide`. -/
def sampleWide : Matrix :=
  { d_mat := some 1, d_num_rows := 1, d_num_cols := 65536, d_alloc_size := 65536,
    d_distributed := false, d_num_procs := 2, d_owns_data := true }

/-! ## Machine integers: basic facts -/

theorem wrapInt_of_fits (x : Int) (hx : fitsInt x) : wrapInt x = x := by
  unfold fitsInt at hx
  unfold wrapInt
  omega

theorem fitsInt_wrapInt (x : Int) : fitsInt (wrapInt x) := by
  unfold fitsInt wrapInt
  omega

theorem imul_of_fits (a b : Int) (h : fitsInt (a * b)) : imul a b = a * b :=
  wrapInt_of_fits (a * b) h

/-! ## `setSize` -/

theorem setSize_small {α : Type} (h : Heap α) (m : Matrix) (r c : Int)
    (hle : imul r c ≤ m.d_alloc_size) :
    Matrix.setSize h m r c = .ok (h, { m with d_num_rows := r, d_num_cols := c }) := by
  unfold Matrix.setSize
  simp only [gt_iff_lt, not_lt.mpr hle, if_false]

theorem setSize_grow_borrowed {α : Type} (h : Heap α) (m : Matrix) (r c : Int)
    (hgt : m.d_alloc_size < imul r c) (hown : m.d_owns_data = false) :
    Matrix.setSize h m r c
      = .error (.fatal "Can not reallocate externally owned storage.") := by
  unfold Matrix.setSize
  simp [hgt, hown, CAROM_ERROR]

theorem setSize_grow_owned {α : Type} (h : Heap α) (m : Matrix) (r c : Int)
    (hgt : m.d_alloc_size < imul r c) (hown : m.d_owns_data = true) :
    Matrix.setSize h m r c
      = .ok ((match m.d_mat with | some p => h.delete p | none => h).new (imul r c) |>.1,
             { m with d_mat := some ((match m.d_mat with
                                       | some p => h.delete p | none => h).new (imul r c) |>.2),
                      d_alloc_size := imul r c, d_num_rows := r, d_num_cols := c }) := by
  unfold Matrix.setSize
  simp [hgt, hown]

/-- C1: `setSize(num_rows, num_cols)` stops with the fatal error "Can not
reallocate externally owned storage." exactly when the matrix does not own its
data and the `int` product `num_rows*num_cols` exceeds `d_alloc_size`; in every
other case the call succeeds. -/
theorem setSize_fatal_iff {α : Type} (h : Heap α) (m : Matrix) (num_rows num_cols : Int) :
    (Matrix.setSize h m num_rows num_cols
        = .error (.fatal "Can not reallocate externally owned storage.")
      ↔ (m.d_owns_data = false ∧ imul num_rows num_cols > m.d_alloc_size))
    ∧ ((∃ s, Matrix.setSize h m num_rows num_cols = .ok s)
      ↔ ¬ (m.d_owns_data = false ∧ imul num_rows num_cols > m.d_alloc_size)) := by
  by_cases hgt : m.d_alloc_size < imul num_rows num_cols
  · cases hown : m.d_owns_data
    · rw [setSize_grow_borrowed h m num_rows num_cols hgt hown]
      simp [hgt]
    · rw [setSize_grow_owned h m num_rows num_cols hgt hown]
      simp
  · rw [setSize_small h m num_rows num_cols (not_lt.mp hgt)]
    simp [hgt]

/-- The fatal branch at a concrete state: a 2 x 3 view of six borrowed
cells cannot be resized to 3 x 3, while the owning matrix can. -/
theorem setSize_fatal_iff_sample :
    Matrix.setSize sampleHeap sampleBorrowed 3 3
        = .error (.fatal "Can not reallocate externally owned storage.")
    ∧ Matrix.setSize sampleHeap sampleOwned 3 3
        = .ok ([none, some (List.replicate 9 none)],
               { sampleOwned with d_mat := some 1, d_num_rows := 3, d_num_cols := 3,
                                  d_alloc_size := 9 }) :=
  ⟨((setSize_fatal_iff sampleHeap sampleBorrowed 3 3).1).mpr ⟨rfl, by decide⟩, rfl⟩

/-- C2: when the `int` product `num_rows*num_cols` is at most `d_alloc_size`,
`setSize` does not reallocate: the free store (hence every stored value), the
pointer `d_mat` and `d_alloc_size` are unchanged, and afterwards
`numRows() == num_rows` and `numColumns() == num_cols`. -/
theorem setSize_within_capacity {α : Type} (h : Heap α) (m : Matrix)
    (num_rows num_cols : Int) (hle : imul num_rows num_cols ≤ m.d_alloc_size) :
    ∃ m', Matrix.setSize h m num_rows num_cols = .ok (h, m')
      ∧ m'.d_mat = m.d_mat
      ∧ (∀ i, Heap.read h ⟨m'.d_mat, i⟩ = Heap.read h ⟨m.d_mat, i⟩)
      ∧ m'.d_alloc_size = m.d_alloc_size
      ∧ m'.numRows = num_rows ∧ m'.numColumns = num_cols :=
  ⟨{ m with d_num_rows := num_rows, d_num_cols := num_cols },
    setSize_small h m num_rows num_cols hle, rfl, fun _ => rfl, rfl, rfl, rfl⟩

/-- Reshaping within capacity at a concrete state: reshaping the borrowed 2 x 3 matrix to 3 x 2. -/
theorem setSize_within_capacity_witness :
    imul 3 2 ≤ sampleBorrowed.d_alloc_size
    ∧ ∃ m', Matrix.setSize sampleHeap sampleBorrowed 3 2 = .ok (sampleHeap, m')
      ∧ m'.d_mat = sampleBorrowed.d_mat
      ∧ (∀ i, Heap.read sampleHeap ⟨m'.d_mat, i⟩
            = Heap.read sampleHeap ⟨sampleBorrowed.d_mat, i⟩)
      ∧ m'.d_alloc_size = sampleBorrowed.d_alloc_size
      ∧ m'.numRows = 3 ∧ m'.numColumns = 2 :=
  ⟨by decide, setSize_within_capacity sampleHeap sampleBorrowed 3 2 (by decide)⟩

theorem setSize_ok_invariant {α : Type} (h h' : Heap α) (m m' : Matrix)
    (num_rows num_cols : Int)
    (hok : Matrix.setSize h m num_rows num_cols = .ok (h', m')) :
    m'.d_num_rows = num_rows ∧ m'.d_num_cols = num_cols
      ∧ imul num_rows num_cols ≤ m'.d_alloc_size := by
  by_cases hgt : m.d_alloc_size < imul num_rows num_cols
  · cases hown : m.d_owns_data
    · rw [setSize_grow_borrowed h m num_rows num_cols hgt hown] at hok
      cases hok
    · rw [setSize_grow_owned h m num_rows num_cols hgt hown] at hok
      injection hok with hok
      injection hok with _ hm
      subst hm
      exact ⟨rfl, rfl, le_refl _⟩
  · rw [setSize_small h m num_rows num_cols (not_lt.mp hgt)] at hok
    injection hok with hok
    injection hok with _ hm
    subst hm
    exact ⟨rfl, rfl, not_lt.mp hgt⟩

/-- C4: on a matrix that does not own its data, a `setSize` that returns
normally has left the free store, the pointer `d_mat` and `d_alloc_size`
exactly as they were, and `d_owns_data` is still false. -/
theorem setSize_borrowed_frame {α : Type} (h h' : Heap α) (m m' : Matrix)
    (num_rows num_cols : Int) (hown : m.d_owns_data = false)
    (hok : Matrix.setSize h m num_rows num_cols = .ok (h', m')) :
    h' = h ∧ m'.d_mat = m.d_mat ∧ m'.d_alloc_size = m.d_alloc_size
      ∧ m'.d_owns_data = false := by
  by_cases hgt : m.d_alloc_size < imul num_rows num_cols
  · rw [setSize_grow_borrowed h m num_rows num_cols hgt hown] at hok
    cases hok
  · rw [setSize_small h m num_rows num_cols (not_lt.mp hgt)] at hok
    injection hok with hok
    injection hok with hh hm
    subst hh hm
    exact ⟨rfl, rfl, rfl, hown⟩

/-- The frame of a borrowed matrix at a concrete state: reshaping the borrowed 2 x 3 matrix to 1 x 4. -/
theorem setSize_borrowed_frame_witness :
    sampleBorrowed.d_owns_data = false
    ∧ Matrix.setSize sampleHeap sampleBorrowed 1 4
        = .ok (sampleHeap, { sampleBorrowed with d_num_rows := 1, d_num_cols := 4 })
    ∧ (sampleHeap = sampleHeap ∧ sampleBorrowed.d_mat = sampleBorrowed.d_mat
        ∧ sampleBorrowed.d_alloc_size = sampleBorrowed.d_alloc_size
        ∧ sampleBorrowed.d_owns_data = false) :=
  ⟨rfl, rfl,
   setSize_borrowed_frame sampleHeap sampleHeap sampleBorrowed
     { sampleBorrowed with d_num_rows := 1, d_num_cols := 4 } 1 4 rfl rfl⟩

/-! ## Element access -/

theorem item_const_eq_item (debug : Bool) (m : Matrix) (row col : Int) :
    Matrix.item_const debug m row col = Matrix.item debug m row col := rfl

theorem item_in_range (debug : Bool) (m : Matrix) (row col : Int)
    (hr0 : 0 ≤ row) (hr : row < m.numRows) (hc0 : 0 ≤ col) (hc : col < m.numColumns) :
    Matrix.item debug m row col
      = .ok ⟨m.d_mat, iadd (imul row m.numColumns) col⟩ := by
  have hr' : row < m.d_num_rows := hr
  have hc' : col < m.d_num_cols := hc
  simp [Matrix.item, CAROM_ASSERT, hr0, hr', hc0, hc', Matrix.numColumns, Matrix.numRows,
    bind, Except.bind, pure, Except.pure]

theorem item_checked_row_fails (m : Matrix) (row col : Int)
    (hrow : ¬ (0 ≤ row ∧ row < m.numRows)) :
    Matrix.item true m row col
      = .error (.assertion "(0 <= row) && (row < numRows())") := by
  have hb : (decide (0 ≤ row) && decide (row < m.numRows)) = false := by
    simpa using hrow
  simp [Matrix.item, CAROM_ASSERT, hb, bind, Except.bind]

theorem item_checked_col_fails (m : Matrix) (row col : Int)
    (hrow : 0 ≤ row ∧ row < m.numRows) (hcol : ¬ (0 ≤ col ∧ col < m.numColumns)) :
    Matrix.item true m row col
      = .error (.assertion "(0 <= col) && (col < numColumns())") := by
  have hb : (decide (0 ≤ col) && decide (col < m.numColumns)) = false := by
    simpa using hcol
  simp [Matrix.item, CAROM_ASSERT, hb, hrow.1, hrow.2, bind, Except.bind]

theorem flat_index_exact (m : Matrix) (row col : Int)
    (hr0 : 0 ≤ row) (hr : row < m.numRows) (hc0 : 0 ≤ col) (hc : col < m.numColumns)
    (hfit : fitsInt (m.numRows * m.numColumns)) :
    iadd (imul row m.numColumns) col = row * m.numColumns + col := by
  have h1 : 0 ≤ row * m.numColumns := mul_nonneg hr0 (le_trans hc0 (le_of_lt hc))
  have h2 : (row + 1) * m.numColumns ≤ m.numRows * m.numColumns :=
    mul_le_mul_of_nonneg_right (by omega) (le_trans hc0 (le_of_lt hc))
  have h3 : (row + 1) * m.numColumns = row * m.numColumns + m.numColumns := by ring
  have hupper : m.numRows * m.numColumns ≤ 2147483647 := hfit.2
  have hmul : imul row m.numColumns = row * m.numColumns := by
    unfold imul
    apply wrapInt_of_fits
    unfold fitsInt
    constructor <;> omega
  rw [hmul]
  unfold iadd
  apply wrapInt_of_fits
  unfold fitsInt
  constructor <;> omega

/-- C5: element access is row-major.  For in-range `row`, `col` the four
accessors (`item` const and non-const, `operator()` const and non-const) return
a reference to one and the same element: the one at flat index
`row*numColumns() + col` of the buffer `d_mat` (the `int` value the code
computes, which is the exact value whenever `numRows()*numColumns()` fits in an
`int`). -/
theorem item_row_major (debug : Bool) (m : Matrix) (row col : Int)
    (hr0 : 0 ≤ row) (hr : row < m.numRows) (hc0 : 0 ≤ col) (hc : col < m.numColumns) :
    Matrix.item_const debug m row col
        = .ok ⟨m.d_mat, iadd (imul row m.numColumns) col⟩
    ∧ Matrix.item debug m row col
        = .ok ⟨m.d_mat, iadd (imul row m.numColumns) col⟩
    ∧ Matrix.call_const debug m row col
        = .ok ⟨m.d_mat, iadd (imul row m.numColumns) col⟩
    ∧ Matrix.call debug m row col
        = .ok ⟨m.d_mat, iadd (imul row m.numColumns) col⟩
    ∧ (fitsInt (m.numRows * m.numColumns) →
        iadd (imul row m.numColumns) col = row * m.numColumns + col) :=
  ⟨item_in_range debug m row col hr0 hr hc0 hc,
   item_in_range debug m row col hr0 hr hc0 hc,
   item_in_range debug m row col hr0 hr hc0 hc,
   item_in_range debug m row col hr0 hr hc0 hc,
   flat_index_exact m row col hr0 hr hc0 hc⟩

/-- Row-major access at a concrete state: element (1, 2) of the borrowed 2 x 3 matrix is cell
5 of its block, which holds 23. -/
theorem item_row_major_witness :
    ((0 : Int) ≤ 1 ∧ 1 < sampleBorrowed.numRows ∧ (0 : Int) ≤ 2
      ∧ 2 < sampleBorrowed.numColumns)
    ∧ (Matrix.item_const true sampleBorrowed 1 2 = .ok ⟨some 0, 5⟩
      ∧ Matrix.item true sampleBorrowed 1 2 = .ok ⟨some 0, 5⟩
      ∧ Matrix.call_const true sampleBorrowed 1 2 = .ok ⟨some 0, 5⟩
      ∧ Matrix.call true sampleBorrowed 1 2 = .ok ⟨some 0, 5⟩
      ∧ (fitsInt (sampleBorrowed.numRows * sampleBorrowed.numColumns) →
          iadd (imul 1 sampleBorrowed.numColumns) 2 = 1 * sampleBorrowed.numColumns + 2))
    ∧ Heap.read sampleHeap ⟨some 0, 5⟩ = some (some 23) :=
  ⟨by decide,
   item_row_major true sampleBorrowed 1 2 (by decide) (by decide) (by decide) (by decide),
   rfl⟩

/-- C6: with the checks compiled in, each of the four accessors stops on an
assertion exactly when the indices are out of range, that is when not
`0 <= row < numRows()` and `0 <= col < numColumns()`.  In particular every
access to a matrix with `numRows() == 0` or `numColumns() == 0` stops, and so
does every access with a negative row or column. -/
theorem item_checked_iff (m : Matrix) (row col : Int) :
    ((∃ e, Matrix.item_const true m row col = .error (.assertion e))
        ↔ ¬ ((0 ≤ row ∧ row < m.numRows) ∧ (0 ≤ col ∧ col < m.numColumns)))
    ∧ ((∃ e, Matrix.item true m row col = .error (.assertion e))
        ↔ ¬ ((0 ≤ row ∧ row < m.numRows) ∧ (0 ≤ col ∧ col < m.numColumns)))
    ∧ ((∃ e, Matrix.call_const true m row col = .error (.assertion e))
        ↔ ¬ ((0 ≤ row ∧ row < m.numRows) ∧ (0 ≤ col ∧ col < m.numColumns)))
    ∧ ((∃ e, Matrix.call true m row col = .error (.assertion e))
        ↔ ¬ ((0 ≤ row ∧ row < m.numRows) ∧ (0 ≤ col ∧ col < m.numColumns)))
    ∧ ((m.numRows = 0 ∨ m.numColumns = 0 ∨ row < 0 ∨ col < 0) →
        (∃ e, Matrix.item_const true m row col = .error (.assertion e))
        ∧ (∃ e, Matrix.item true m row col = .error (.assertion e))
        ∧ (∃ e, Matrix.call_const true m row col = .error (.assertion e))
        ∧ (∃ e, Matrix.call true m row col = .error (.assertion e))) := by
  have key : (∃ e, Matrix.item true m row col = .error (.assertion e))
      ↔ ¬ ((0 ≤ row ∧ row < m.numRows) ∧ (0 ≤ col ∧ col < m.numColumns)) := by
    by_cases hrow : 0 ≤ row ∧ row < m.numRows
    · by_cases hcol : 0 ≤ col ∧ col < m.numColumns
      · rw [item_in_range true m row col hrow.1 hrow.2 hcol.1 hcol.2]
        simp [hrow, hcol]
      · rw [item_checked_col_fails m row col hrow hcol]
        simp [hcol]
    · rw [item_checked_row_fails m row col hrow]
      simp [hrow]
  refine ⟨key, key, key, key, fun hdeg => ?_⟩
  have hout : ¬ ((0 ≤ row ∧ row < m.numRows) ∧ (0 ≤ col ∧ col < m.numColumns)) := by
    rintro ⟨⟨h1, h2⟩, h3, h4⟩
    rcases hdeg with h | h | h | h <;> omega
  exact ⟨key.mpr hout, key.mpr hout, key.mpr hout, key.mpr hout⟩

/-- Checked access at a concrete state: on the borrowed 2 x 3 matrix the access (2, 0)
stops on the row assertion and the access (0, -1) on the column assertion. -/
theorem item_checked_iff_sample :
    Matrix.item true sampleBorrowed 2 0
        = .error (.assertion "(0 <= row) && (row < numRows())")
    ∧ Matrix.item true sampleBorrowed 0 (-1)
        = .error (.assertion "(0 <= col) && (col < numColumns())")
    ∧ ∃ e, Matrix.call true sampleBorrowed 0 (-1) = .error (.assertion e) :=
  ⟨rfl, rfl,
   ((item_checked_iff sampleBorrowed 0 (-1)).2.2.2.1).mpr (by decide)⟩

/-! ## The overloads of the kernels -/

theorem except_bind_pair_eta {ε σ R : Type} (x : Except ε (σ × R)) :
    (x >>= fun p => match p with | (s, r) => pure (s, r)) = x := by
  cases x with
  | error e => rfl
  | ok p => cases p; rfl

theorem fill_ptr_eq {σ A B R : Type} (k : Kernel σ A B R) (s : σ) (this : A) (other : B)
    (result : Option R) :
    k.fill_ptr s this other result
      = (k.size_result s this other result).bind (fun p =>
          (k.fill_ref p.1 this other p.2).map (fun q => (q.1, some q.2))) := by
  unfold Kernel.fill_ptr Kernel.fill_ref
  cases hsz : k.size_result s this other result with
  | error e => rfl
  | ok p =>
    obtain ⟨s1, r⟩ := p
    cases hb : k.body s1 this other r with
    | error e => simp [bind, Except.bind, Except.map, hb]
    | ok q =>
      obtain ⟨s2, r'⟩ := q
      simp [bind, Except.bind, Except.map, hb, pure, Except.pure]

/-- C7: the overloads of each kernel are equivalent.  The return-new-object
forms `mult(const Matrix&)`, `mult(const Vector&)`, `transposeMult(const
Matrix&)`, `transposeMult(const Vector&)` and `inverse()` return exactly what
the fill-a-pointer form stores into a result pointer that is null on entry;
the pointer-argument forms return, for a non-null argument, exactly what the
reference-argument form returns on the pointee; and the fill-a-pointer form,
once it has allocated or resized the result, stores what the fill-a-reference
form stores into that result. -/
theorem overloads_share_one_body {α V : Type} (debug : Bool) (K : Kernels α V)
    (h : Heap α) (this other : Matrix) (v : V) (result : Option Matrix)
    (result_v : Option V) :
    (Matrix.mult K h this other = K.mult.fill_ptr h this other none
      ∧ Matrix.mult_vec K h this v = K.mult_vec.fill_ptr h this v none
      ∧ Matrix.transposeMult K h this other = K.transposeMult.fill_ptr h this other none
      ∧ Matrix.transposeMult_vec K h this v = K.transposeMult_vec.fill_ptr h this v none
      ∧ Matrix.inverse K h this = K.inverse.fill_ptr h this () none)
    ∧ (Matrix.mult_p debug K h this (some other) = Matrix.mult K h this other
      ∧ Matrix.mult_vec_p debug K h this (some v) = Matrix.mult_vec K h this v
      ∧ Matrix.transposeMult_p debug K h this (some other)
          = Matrix.transposeMult K h this other
      ∧ Matrix.transposeMult_vec_p debug K h this (some v)
          = Matrix.transposeMult_vec K h this v)
    ∧ (K.mult.fill_ptr h this other result
          = (K.mult.size_result h this other result).bind (fun p =>
              (K.mult.fill_ref p.1 this other p.2).map (fun q => (q.1, some q.2)))
      ∧ K.mult_vec.fill_ptr h this v result_v
          = (K.mult_vec.size_result h this v result_v).bind (fun p =>
              (K.mult_vec.fill_ref p.1 this v p.2).map (fun q => (q.1, some q.2)))
      ∧ K.transposeMult.fill_ptr h this other result
          = (K.transposeMult.size_result h this other result).bind (fun p =>
              (K.transposeMult.fill_ref p.1 this other p.2).map (fun q => (q.1, some q.2)))
      ∧ K.transposeMult_vec.fill_ptr h this v result_v
          = (K.transposeMult_vec.size_result h this v result_v).bind (fun p =>
              (K.transposeMult_vec.fill_ref p.1 this v p.2).map (fun q => (q.1, some q.2)))
      ∧ K.inverse.fill_ptr h this () result
          = (K.inverse.size_result h this () result).bind (fun p =>
              (K.inverse.fill_ref p.1 this () p.2).map (fun q => (q.1, some q.2)))) := by
  refine ⟨⟨?_, ?_, ?_, ?_, ?_⟩, ⟨?_, ?_, ?_, ?_⟩, ⟨?_, ?_, ?_, ?_, ?_⟩⟩
  · exact except_bind_pair_eta _
  · exact except_bind_pair_eta _
  · exact except_bind_pair_eta _
  · exact except_bind_pair_eta _
  · exact except_bind_pair_eta _
  · cases debug <;> rfl
  · cases debug <;> rfl
  · cases debug <;> rfl
  · cases debug <;> rfl
  · exact fill_ptr_eq _ _ _ _ _
  · exact fill_ptr_eq _ _ _ _ _
  · exact fill_ptr_eq _ _ _ _ _
  · exact fill_ptr_eq _ _ _ _ _
  · exact fill_ptr_eq _ _ _ _ _

/-! ## The pivoted-QR selector: the reduction -/

section SelectorFacts

variable {β : Type} [LinearOrder β]

theorem beats_iff_key (a b : Candidate β) : a.beats b = true ↔ a.key < b.key := by
  unfold Candidate.beats Candidate.key
  rw [Prod.Lex.lt_iff]
  simp [OrderDual.toDual_lt_toDual]

theorem best_eq (w c : Candidate β) :
    Candidate.best w c = if c.key < w.key then c else w := by
  unfold Candidate.best
  by_cases hb : c.beats w = true
  · rw [if_pos hb, if_pos ((beats_iff_key c w).mp hb)]
  · rw [if_neg hb, if_neg (fun hk => hb ((beats_iff_key c w).mpr hk))]

theorem key_le_iff (c d : Candidate β) :
    c.key ≤ d.key ↔ d.value < c.value ∨ (c.value = d.value ∧ c.row ≤ d.row) := by
  unfold Candidate.key
  rw [Prod.Lex.le_iff]
  simp [OrderDual.toDual_lt_toDual]

theorem foldl_best_spec (cs : List (Candidate β)) (w : Candidate β) :
    cs.foldl Candidate.best w ∈ w :: cs
      ∧ ∀ d ∈ w :: cs, (cs.foldl Candidate.best w).key ≤ d.key := by
  induction cs generalizing w with
  | nil => simp
  | cons c cs ih =>
    obtain ⟨hmem, hmin⟩ := ih (Candidate.best w c)
    have hbw : (Candidate.best w c).key ≤ w.key := by
      rw [best_eq]
      split_ifs with hlt
      · exact le_of_lt hlt
      · exact le_refl _
    have hbc : (Candidate.best w c).key ≤ c.key := by
      rw [best_eq]
      split_ifs with hlt
      · exact le_refl _
      · exact not_lt.mp hlt
    have hb : Candidate.best w c = w ∨ Candidate.best w c = c := by
      rw [best_eq]
      split_ifs
      · exact Or.inr rfl
      · exact Or.inl rfl
    have hroot := hmin _ (List.mem_cons_self _ _)
    constructor
    · rw [List.foldl_cons]
      rcases List.mem_cons.mp hmem with h | h
      · rw [h]
        rcases hb with hb | hb
        · rw [hb]; exact List.mem_cons_self _ _
        · rw [hb]; exact List.mem_cons_of_mem _ (List.mem_cons_self _ _)
      · exact List.mem_cons_of_mem _ (List.mem_cons_of_mem _ h)
    · intro d hd
      rw [List.foldl_cons]
      rcases List.mem_cons.mp hd with h | h
      · rw [h]; exact le_trans hroot hbw
      · rcases List.mem_cons.mp h with h | h
        · rw [h]; exact le_trans hroot hbc
        · exact hmin d (List.mem_cons_of_mem _ h)

theorem reduceBest_spec (l : List (Candidate β)) (r : Candidate β)
    (h : reduceBest l = some r) : r ∈ l ∧ ∀ d ∈ l, r.key ≤ d.key := by
  cases l with
  | nil => simp [reduceBest] at h
  | cons c cs =>
    simp only [reduceBest, Option.some.injEq] at h
    rw [← h]
    exact foldl_best_spec cs c

theorem reduceBest_of_mem (l : List (Candidate β)) (d : Candidate β) (hd : d ∈ l) :
    ∃ r, reduceBest l = some r := by
  cases l with
  | nil => cases hd
  | cons c cs => exact ⟨_, rfl⟩

theorem reduce_locals_spec {ι : Type} (ranks : List ι) (L : ι → List (Candidate β))
    (w : Candidate β)
    (h : reduceBest (ranks.filterMap (fun r => reduceBest (L r))) = some w) :
    (∃ r ∈ ranks, w ∈ L r) ∧ ∀ r ∈ ranks, ∀ d ∈ L r, w.key ≤ d.key := by
  obtain ⟨hmem, hmin⟩ := reduceBest_spec _ w h
  constructor
  · obtain ⟨r, hr, hrw⟩ := List.mem_filterMap.mp hmem
    exact ⟨r, hr, (reduceBest_spec _ w hrw).1⟩
  · intro r hr d hd
    obtain ⟨w', hw'⟩ := reduceBest_of_mem (L r) d hd
    have hin : w' ∈ ranks.filterMap (fun r => reduceBest (L r)) :=
      List.mem_filterMap.mpr ⟨r, hr, hw'⟩
    exact le_trans (hmin w' hin) ((reduceBest_spec _ w' hw').2 d hd)

theorem reduce_locals_of_mem {ι : Type} (ranks : List ι) (L : ι → List (Candidate β))
    (r : ι) (hr : r ∈ ranks) (d : Candidate β) (hd : d ∈ L r) :
    ∃ w, reduceBest (ranks.filterMap (fun r => reduceBest (L r))) = some w := by
  obtain ⟨w', hw'⟩ := reduceBest_of_mem (L r) d hd
  exact reduceBest_of_mem _ w' (List.mem_filterMap.mpr ⟨r, hr, hw'⟩)

end SelectorFacts

theorem mem_candidatesOf {β : Type} (norm : List Nat → Nat → β) (chosen : List Nat) (owner : Nat)
    (rows : List Nat) (d : Candidate β) :
    d ∈ candidatesOf norm chosen owner rows
      ↔ ∃ g, g ∈ rows ∧ g ∉ chosen ∧ d = ⟨norm chosen g, g, owner⟩ := by
  unfold candidatesOf
  simp only [List.mem_map, List.mem_filter, decide_eq_true_eq]
  constructor
  · rintro ⟨g, ⟨hg, hng⟩, rfl⟩
    exact ⟨g, hg, hng, rfl⟩
  · rintro ⟨g, hg, hng, rfl⟩
    exact ⟨g, ⟨hg, hng⟩, rfl⟩

/-! ## The pivoted-QR selector: row layouts -/

theorem mem_localRows (row_counts : List Nat) (rank g : Nat) :
    g ∈ Layout.localRows row_counts rank
      ↔ Layout.rowOffset row_counts rank ≤ g
        ∧ g < Layout.rowOffset row_counts rank + row_counts.getD rank 0 := by
  unfold Layout.localRows
  simp only [List.mem_map, List.mem_range]
  constructor
  · rintro ⟨i, hi, rfl⟩
    omega
  · rintro ⟨h1, h2⟩
    exact ⟨g - Layout.rowOffset row_counts rank, by omega, by omega⟩

theorem exists_rank_of_lt_sum (row_counts : List Nat) (g : Nat) (hg : g < row_counts.sum) :
    ∃ rank, rank < row_counts.length ∧ Layout.rowOffset row_counts rank ≤ g
      ∧ g < Layout.rowOffset row_counts rank + row_counts.getD rank 0 := by
  induction row_counts generalizing g with
  | nil => simp at hg
  | cons c cs ih =>
    by_cases hlt : g < c
    · exact ⟨0, by simp, by simp [Layout.rowOffset], by simpa [Layout.rowOffset] using hlt⟩
    · have hg' : g - c < cs.sum := by
        simp only [List.sum_cons] at hg
        omega
      obtain ⟨r, hr, h1, h2⟩ := ih (g - c) hg'
      refine ⟨r + 1, by simpa using hr, ?_, ?_⟩
      · simp only [Layout.rowOffset, List.take_succ_cons, List.sum_cons]
        unfold Layout.rowOffset at h1
        omega
      · simp only [Layout.rowOffset, List.take_succ_cons, List.sum_cons,
          List.getD_cons_succ]
        unfold Layout.rowOffset at h2
        omega

theorem rowOffset_add_le_sum (row_counts : List Nat) (rank : Nat) :
    Layout.rowOffset row_counts rank + row_counts.getD rank 0 ≤ row_counts.sum := by
  induction row_counts generalizing rank with
  | nil => simp [Layout.rowOffset]
  | cons c cs ih =>
    cases rank with
    | zero => simp [Layout.rowOffset]
    | succ r =>
      have := ih r
      simp only [Layout.rowOffset, List.take_succ_cons, List.sum_cons,
        List.getD_cons_succ]
      unfold Layout.rowOffset at this
      omega

theorem lt_sum_iff_held (row_counts : List Nat) (g : Nat) :
    g < row_counts.sum
      ↔ ∃ rank, rank ∈ List.range row_counts.length
          ∧ g ∈ Layout.localRows row_counts rank := by
  constructor
  · intro hg
    obtain ⟨r, hr, h1, h2⟩ := exists_rank_of_lt_sum row_counts g hg
    exact ⟨r, List.mem_range.mpr hr, (mem_localRows row_counts r g).mpr ⟨h1, h2⟩⟩
  · rintro ⟨r, _, hmem⟩
    have h := (mem_localRows row_counts r g).mp hmem
    have := rowOffset_add_le_sum row_counts r
    omega

theorem balanced_eq_replicate (row_counts : List Nat)
    (hbal : (Layout.distributed row_counts).balanced = true) :
    row_counts = List.replicate row_counts.length (row_counts.headD 0) := by
  cases row_counts with
  | nil => rfl
  | cons n rest =>
    simp only [Layout.balanced, List.all_eq_true, beq_iff_eq] at hbal
    simp only [List.length_cons, List.headD_cons, List.replicate_succ, List.cons.injEq,
      true_and]
    exact List.eq_replicate_iff.mpr ⟨rfl, hbal⟩

theorem rowOffset_replicate (num_procs n rank : Nat) (hr : rank ≤ num_procs) :
    Layout.rowOffset (List.replicate num_procs n) rank = rank * n := by
  unfold Layout.rowOffset
  rw [List.take_replicate, Nat.min_eq_left hr, List.sum_replicate, smul_eq_mul]

theorem getD_replicate (num_procs n rank : Nat) (hr : rank < num_procs) :
    (List.replicate num_procs n).getD rank 0 = n := by
  simp [List.getD, List.getElem?_replicate, hr]

/-! ## The pivoted-QR selector: the three pivot steps -/

section StepFacts

variable {β : Type} [LinearOrder β]

theorem of_key_le (c d : Candidate β) (h : c.key ≤ d.key) :
    d.value ≤ c.value ∧ (d.value = c.value → c.row ≤ d.row) := by
  rcases (key_le_iff c d).mp h with hlt | ⟨heq, hrow⟩
  · exact ⟨le_of_lt hlt, fun he => absurd he (ne_of_lt hlt)⟩
  · exact ⟨le_of_eq heq.symm, fun _ => hrow⟩

theorem serialStep_spec (norm : List Nat → Nat → β) (rows me : Nat) :
    StepSpec norm rows (fun owner g => owner = me ∧ g < rows)
      (serialStep norm rows me) := by
  rintro chosen ⟨g, hg, hng⟩
  have hmem : (⟨norm chosen g, g, me⟩ : Candidate β)
      ∈ candidatesOf norm chosen me (List.range rows) :=
    (mem_candidatesOf norm chosen me _ _).mpr ⟨g, List.mem_range.mpr hg, hng, rfl⟩
  obtain ⟨c, hc⟩ := reduceBest_of_mem _ _ hmem
  obtain ⟨hcm, hmin⟩ := reduceBest_spec _ c hc
  obtain ⟨g', hg', hng', rfl⟩ := (mem_candidatesOf norm chosen me _ _).mp hcm
  refine ⟨_, hc, List.mem_range.mp hg', hng', rfl, ⟨rfl, List.mem_range.mp hg'⟩, ?_⟩
  intro j hj hnj
  exact of_key_le _ _ (hmin ⟨norm chosen j, j, me⟩
    ((mem_candidatesOf norm chosen me _ _).mpr ⟨j, List.mem_range.mpr hj, hnj, rfl⟩))

theorem unbalancedStep_spec (norm : List Nat → Nat → β) (row_counts : List Nat) :
    StepSpec norm row_counts.sum (Layout.holds (.distributed row_counts))
      (unbalancedStep norm row_counts) := by
  rintro chosen ⟨g, hg, hng⟩
  obtain ⟨r, hr, hgr⟩ := (lt_sum_iff_held row_counts g).mp hg
  have hmem : (⟨norm chosen g, g, r⟩ : Candidate β)
      ∈ candidatesOf norm chosen r (Layout.localRows row_counts r) :=
    (mem_candidatesOf norm chosen r _ _).mpr ⟨g, hgr, hng, rfl⟩
  obtain ⟨w, hw⟩ := reduce_locals_of_mem (List.range row_counts.length)
    (fun rank => candidatesOf norm chosen rank (Layout.localRows row_counts rank)) r hr _ hmem
  obtain ⟨⟨r', hr', hwm⟩, hmin⟩ := reduce_locals_spec _ _ w hw
  obtain ⟨g', hg', hng', rfl⟩ := (mem_candidatesOf norm chosen r' _ _).mp hwm
  have hheld := (mem_localRows row_counts r' g').mp hg'
  refine ⟨_, hw, (lt_sum_iff_held row_counts g').mpr ⟨r', hr', hg'⟩, hng', rfl,
    ⟨List.mem_range.mp hr', hheld.1, hheld.2⟩, ?_⟩
  intro j hj hnj
  obtain ⟨rj, hrj, hjr⟩ := (lt_sum_iff_held row_counts j).mp hj
  exact of_key_le _ _ (hmin rj hrj ⟨norm chosen j, j, rj⟩
    ((mem_candidatesOf norm chosen rj _ _).mpr ⟨j, hjr, hnj, rfl⟩))

theorem localRows_replicate (num_procs n rank : Nat) (hr : rank < num_procs) :
    Layout.localRows (List.replicate num_procs n) rank
      = (List.range n).map (fun i => rank * n + i) := by
  unfold Layout.localRows
  rw [getD_replicate num_procs n rank hr, rowOffset_replicate num_procs n rank (le_of_lt hr)]

theorem balancedStep_spec_replicate (norm : List Nat → Nat → β) (num_procs n : Nat) :
    StepSpec norm (List.replicate num_procs n).sum
      (Layout.holds (.distributed (List.replicate num_procs n)))
      (balancedStep norm num_procs n) := by
  rintro chosen ⟨g, hg, hng⟩
  obtain ⟨r, hr, hgr⟩ := (lt_sum_iff_held _ g).mp hg
  rw [List.length_replicate] at hr
  rw [localRows_replicate num_procs n r (List.mem_range.mp hr)] at hgr
  have hmem : (⟨norm chosen g, g, 0⟩ : Candidate β)
      ∈ candidatesOf norm chosen 0 ((List.range n).map (fun i => r * n + i)) :=
    (mem_candidatesOf norm chosen 0 _ _).mpr ⟨g, hgr, hng, rfl⟩
  obtain ⟨w, hw⟩ := reduce_locals_of_mem (List.range num_procs)
    (fun rank => candidatesOf norm chosen 0 ((List.range n).map (fun i => rank * n + i)))
    r hr _ hmem
  obtain ⟨⟨r', hr', hwm⟩, hmin⟩ := reduce_locals_spec _ _ w hw
  obtain ⟨g', hg', hng', rfl⟩ := (mem_candidatesOf norm chosen 0 _ _).mp hwm
  have hr'lt : r' < num_procs := List.mem_range.mp hr'
  have hg'loc : g' ∈ Layout.localRows (List.replicate num_procs n) r' := by
    rw [localRows_replicate num_procs n r' hr'lt]; exact hg'
  have hheld := (mem_localRows _ r' g').mp hg'loc
  have hoff := rowOffset_replicate num_procs n r' (le_of_lt hr'lt)
  have hcnt := getD_replicate num_procs n r' hr'lt
  have hdiv : g' / n = r' := by
    apply Nat.div_eq_of_lt_le
    · rw [hoff] at hheld; exact hheld.1
    · rw [hoff, hcnt] at hheld
      have : (r' + 1) * n = r' * n + n := by ring
      omega
  have hstep : balancedStep norm num_procs n chosen
      = some ⟨norm chosen g', g', g' / n⟩ := by
    unfold balancedStep
    rw [hw]
    rfl
  refine ⟨_, hstep, ?_, hng', rfl, ?_, ?_⟩
  · exact (lt_sum_iff_held _ g').mpr
      ⟨r', by rw [List.length_replicate]; exact hr', hg'loc⟩
  · show Layout.holds _ (g' / n) g'
    rw [hdiv]
    exact ⟨by rw [List.length_replicate]; exact hr'lt, hheld.1, hheld.2⟩
  · intro j hj hnj
    obtain ⟨rj, hrj, hjr⟩ := (lt_sum_iff_held _ j).mp hj
    rw [List.length_replicate] at hrj
    rw [localRows_replicate num_procs n rj (List.mem_range.mp hrj)] at hjr
    exact of_key_le _ _ (hmin rj hrj ⟨norm chosen j, j, 0⟩
      ((mem_candidatesOf norm chosen 0 _ _).mpr ⟨j, hjr, hnj, rfl⟩))

theorem balancedStep_spec (norm : List Nat → Nat → β) (row_counts : List Nat)
    (hbal : (Layout.distributed row_counts).balanced = true) :
    StepSpec norm row_counts.sum (Layout.holds (.distributed row_counts))
      (balancedStep norm row_counts.length (row_counts.headD 0)) := by
  have h := balancedStep_spec_replicate norm row_counts.length (row_counts.headD 0)
  rw [← balanced_eq_replicate row_counts hbal] at h
  exact h

end StepFacts

/-! ## The pivoted-QR selector: the pivot loop -/

theorem pivotLoop_succ {β : Type} (step : List Nat → Option (Candidate β)) (k : Nat) (c : Candidate β)
    (hc : step ((pivotLoop step k).map Prod.fst) = some c) :
    pivotLoop step (k + 1) = pivotLoop step k ++ [(c.row, c.owner)] := by
  simp only [pivotLoop, hc]

section LoopFacts

variable {β : Type} [LinearOrder β]

theorem StepSpec.mono {norm : List Nat → Nat → β} {rows : Nat}
    {ok1 ok2 : Nat → Nat → Prop} {step : List Nat → Option (Candidate β)}
    (hmono : ∀ o g, ok1 o g → ok2 o g) (h : StepSpec norm rows ok1 step) :
    StepSpec norm rows ok2 step := by
  intro chosen hex
  obtain ⟨c, h1, h2, h3, h4, h5, h6⟩ := h chosen hex
  exact ⟨c, h1, h2, h3, h4, hmono _ _ h5, h6⟩

theorem exists_unchosen (rows : Nat) (chosen : List Nat) (hlen : chosen.length < rows) :
    ∃ g, g < rows ∧ g ∉ chosen := by
  by_contra hno
  push_neg at hno
  have hsub : List.range rows ⊆ chosen := fun g hg => hno g (List.mem_range.mp hg)
  have hle := ((List.nodup_range rows).subperm hsub).length_le
  rw [List.length_range] at hle
  omega

theorem pivotLoop_spec {norm : List Nat → Nat → β} {rows : Nat}
    {owner_ok : Nat → Nat → Prop} {step : List Nat → Option (Candidate β)}
    (hstep : StepSpec norm rows owner_ok step) (k : Nat) (hk : k ≤ rows) :
    (pivotLoop step k).length = k
      ∧ ((pivotLoop step k).map Prod.fst).Nodup
      ∧ ∀ p ∈ pivotLoop step k, p.1 < rows ∧ owner_ok p.2 p.1 := by
  induction k with
  | zero => simp [pivotLoop]
  | succ k ih =>
    obtain ⟨hlen, hnd, hall⟩ := ih (by omega)
    have hex := exists_unchosen rows ((pivotLoop step k).map Prod.fst)
      (by rw [List.length_map, hlen]; omega)
    obtain ⟨c, hc, hlt, hnew, _, hown, _⟩ := hstep _ hex
    rw [pivotLoop_succ step k c hc]
    refine ⟨by rw [List.length_append, hlen]; rfl, ?_, ?_⟩
    · rw [List.map_append, List.map_singleton]
      refine List.Nodup.append hnd (List.nodup_singleton _) ?_
      intro a ha hb
      rw [List.mem_singleton] at hb
      subst hb
      exact hnew ha
    · intro p hp
      rcases List.mem_append.mp hp with h | h
      · exact hall p h
      · rw [List.mem_singleton] at h
        subst h
        exact ⟨hlt, hown⟩

theorem pivotLoop_take {norm : List Nat → Nat → β} {rows : Nat}
    {owner_ok : Nat → Nat → Prop} {step : List Nat → Option (Candidate β)}
    (hstep : StepSpec norm rows owner_ok step) (k : Nat) (hk : k ≤ rows)
    (i : Nat) (hi : i ≤ k) :
    (pivotLoop step k).take i = pivotLoop step i := by
  induction k with
  | zero =>
    have : i = 0 := by omega
    subst this
    rfl
  | succ k ih =>
    obtain ⟨hlen, _, _⟩ := pivotLoop_spec hstep k (by omega)
    by_cases hik : i = k + 1
    · subst hik
      exact List.take_of_length_le (by
        rw [(pivotLoop_spec hstep (k + 1) hk).1])
    · have hex := exists_unchosen rows ((pivotLoop step k).map Prod.fst)
        (by rw [List.length_map, hlen]; omega)
      obtain ⟨c, hc, _⟩ := hstep _ hex
      rw [pivotLoop_succ step k c hc, List.take_append_of_le_length (by omega)]
      exact ih (by omega) (by omega)

theorem pivotLoop_getElem {norm : List Nat → Nat → β} {rows : Nat}
    {owner_ok : Nat → Nat → Prop} {step : List Nat → Option (Candidate β)}
    (hstep : StepSpec norm rows owner_ok step) (k : Nat) (hk : k ≤ rows)
    (i : Nat) (hi : i < k) :
    ∃ c, step ((pivotLoop step i).map Prod.fst) = some c
      ∧ (pivotLoop step k)[i]? = some (c.row, c.owner) := by
  obtain ⟨hlen, _, _⟩ := pivotLoop_spec hstep i (by omega)
  have hex := exists_unchosen rows ((pivotLoop step i).map Prod.fst)
    (by rw [List.length_map, hlen]; omega)
  obtain ⟨c, hc, _⟩ := hstep _ hex
  refine ⟨c, hc, ?_⟩
  have htake := pivotLoop_take hstep k hk (i + 1) (by omega)
  rw [pivotLoop_succ step i c hc] at htake
  have h1 : ((pivotLoop step k).take (i + 1))[i]? = (pivotLoop step k)[i]? := by
    rw [List.getElem?_take, if_pos (Nat.lt_succ_self i)]
  rw [← h1, htake, List.getElem?_append_right (by omega), hlen]
  simp

theorem pivotLoop_agree {norm : List Nat → Nat → β} {rows : Nat}
    {ok1 ok2 : Nat → Nat → Prop} {s1 s2 : List Nat → Option (Candidate β)}
    (h1 : StepSpec norm rows ok1 s1) (h2 : StepSpec norm rows ok2 s2)
    (k : Nat) (hk : k ≤ rows) :
    (pivotLoop s1 k).map Prod.fst = (pivotLoop s2 k).map Prod.fst := by
  induction k with
  | zero => rfl
  | succ k ih =>
    have heq := ih (by omega)
    obtain ⟨hlen, _, _⟩ := pivotLoop_spec h1 k (by omega)
    have hex := exists_unchosen rows ((pivotLoop s1 k).map Prod.fst)
      (by rw [List.length_map, hlen]; omega)
    obtain ⟨c, hc, hclt, hcnew, hcval, _, hcmin⟩ := h1 _ hex
    obtain ⟨d, hd, hdlt, hdnew, hdval, _, hdmin⟩ := h2 _ (heq ▸ hex)
    rw [pivotLoop_succ s1 k c hc, pivotLoop_succ s2 k d hd, List.map_append,
      List.map_append, heq]
    have hrow : c.row = d.row := by
      rw [← heq] at hdnew hdval hdmin
      obtain ⟨a1, a2⟩ := hcmin d.row hdlt hdnew
      obtain ⟨b1, b2⟩ := hdmin c.row hclt hcnew
      rw [← hdval] at a1 a2
      rw [← hcval] at b1 b2
      have hv : c.value = d.value := le_antisymm b1 a1
      exact le_antisymm (a2 hv.symm) (b2 hv)
    simp [hrow]

end LoopFacts

/-! ## The pivoted-QR selector: the public entry point -/

section EntryFacts

variable {β : Type} [LinearOrder β]

theorem qrcp_eq_loop (norm : List Nat → Nat → β) (layout : Layout) (me : Nat) :
    ∃ step : List Nat → Option (Candidate β),
      StepSpec norm layout.totalRows
          (fun o g => me < layout.numProcs → layout.holds o g) step
        ∧ ∀ k : Int, k ≤ layout.totalRows →
            qrcp_pivots_transpose norm layout me k = .ok (pivotLoop step k.toNat) := by
  cases layout with
  | replicated num_procs rows =>
    refine ⟨serialStep norm rows me, StepSpec.mono ?_ (serialStep_spec norm rows me), ?_⟩
    · rintro o g ⟨rfl, hg⟩ hme
      exact ⟨hme, hg⟩
    · intro k hk
      have hk' : ¬ (k > (rows : Int)) := not_lt.mpr hk
      simp only [qrcp_pivots_transpose, qrcp_pivots_transpose_serial]
      rw [if_neg hk']
  | distributed row_counts =>
    by_cases hbal : (Layout.distributed row_counts).balanced = true
    · refine ⟨balancedStep norm row_counts.length (row_counts.headD 0),
        StepSpec.mono (fun _ _ h _ => h) (balancedStep_spec norm row_counts hbal), ?_⟩
      intro k hk
      have hk' : ¬ (k > (row_counts.sum : Int)) := not_lt.mpr hk
      simp only [qrcp_pivots_transpose, qrcp_pivots_transpose_distributed]
      rw [if_neg hk', if_pos hbal]
    · refine ⟨unbalancedStep norm row_counts,
        StepSpec.mono (fun _ _ h _ => h) (unbalancedStep_spec norm row_counts), ?_⟩
      intro k hk
      have hk' : ¬ (k > (row_counts.sum : Int)) := not_lt.mpr hk
      simp only [qrcp_pivots_transpose, qrcp_pivots_transpose_distributed]
      rw [if_neg hk', if_neg hbal]

/-- C8: for a matrix of `N` total rows and `0 <= k <= N` pivots requested,
`qrcp_pivots_transpose` returns and fills `row_pivot[0..k)` with global row
indices that lie in `[0, N)` and are pairwise distinct, and `row_pivot_owner[i]`
with the rank of a process that holds global row `row_pivot[i]`; for `k == N`
the indices are a permutation of all `N` rows. -/
theorem qrcp_pivots_valid (norm : List Nat → Nat → β) (layout : Layout) (me : Nat)
    (k : Int) (hme : me < layout.numProcs) (h0 : 0 ≤ k) (hk : k ≤ layout.totalRows) :
    ∃ out, qrcp_pivots_transpose norm layout me k = .ok out
      ∧ (out.length : Int) = k
      ∧ (∀ p ∈ out, p.1 < layout.totalRows)
      ∧ (out.map Prod.fst).Nodup
      ∧ (∀ p ∈ out, layout.holds p.2 p.1)
      ∧ (k = layout.totalRows → (out.map Prod.fst).Perm (List.range layout.totalRows)) := by
  obtain ⟨step, hstep, hrun⟩ := qrcp_eq_loop norm layout me
  have hkn : k.toNat ≤ layout.totalRows := by omega
  obtain ⟨hlen, hnd, hall⟩ := pivotLoop_spec hstep k.toNat hkn
  refine ⟨_, hrun k hk, by rw [hlen]; omega, fun p hp => (hall p hp).1, hnd,
    fun p hp => (hall p hp).2 hme, ?_⟩
  intro hfull
  have hsub : (pivotLoop step k.toNat).map Prod.fst ⊆ List.range layout.totalRows := by
    intro g hg
    obtain ⟨p, hp, rfl⟩ := List.mem_map.mp hg
    exact List.mem_range.mpr (hall p hp).1
  refine (hnd.subperm hsub).perm_of_length_le ?_
  rw [List.length_range, List.length_map, hlen]
  omega

/-- Valid pivots at a concrete matrix: five rows split 2 + 3 over two processes, all
five pivots requested. -/
theorem qrcp_pivots_valid_witness :
    qrcp_pivots_transpose sampleNorm (.distributed [2, 3]) 0 5
        = .ok [(1, 0), (2, 1), (4, 1), (0, 0), (3, 1)]
    ∧ ∃ out, qrcp_pivots_transpose sampleNorm (.distributed [2, 3]) 0 5 = .ok out
      ∧ (out.length : Int) = 5
      ∧ (∀ p ∈ out, p.1 < (Layout.distributed [2, 3]).totalRows)
      ∧ (out.map Prod.fst).Nodup
      ∧ (∀ p ∈ out, (Layout.distributed [2, 3]).holds p.2 p.1)
      ∧ ((5 : Int) = (Layout.distributed [2, 3]).totalRows →
          (out.map Prod.fst).Perm (List.range (Layout.distributed [2, 3]).totalRows)) :=
  ⟨rfl, qrcp_pivots_valid sampleNorm (.distributed [2, 3]) 0 5
    (by decide) (by decide) (by decide)⟩

/-- C9: for every matrix content (`norm`), every split of its rows over the
processes (`row_counts`, balanced or not) and every `k` up to the total row
count, `qrcp_pivots_transpose` on the distributed matrix returns the same
global row indices, in the same order and hence as a set, as
`qrcp_pivots_transpose_serial` on the undistributed matrix of the same rows. -/
theorem qrcp_distributed_matches_serial (norm : List Nat → Nat → β)
    (row_counts : List Nat) (me me' : Nat) (k : Int) (hk : k ≤ row_counts.sum) :
    ∃ out_d out_s,
      qrcp_pivots_transpose norm (.distributed row_counts) me k = .ok out_d
      ∧ qrcp_pivots_transpose_serial norm row_counts.sum me' k = .ok out_s
      ∧ out_d.map Prod.fst = out_s.map Prod.fst
      ∧ ∀ g, g ∈ out_d.map Prod.fst ↔ g ∈ out_s.map Prod.fst := by
  obtain ⟨step, hstep, hrun⟩ := qrcp_eq_loop norm (.distributed row_counts) me
  have hkn : k.toNat ≤ row_counts.sum := by omega
  have hserial : qrcp_pivots_transpose_serial norm row_counts.sum me' k
      = .ok (pivotLoop (serialStep norm row_counts.sum me') k.toNat) := by
    have hk' : ¬ (k > (row_counts.sum : Int)) := not_lt.mpr hk
    simp only [qrcp_pivots_transpose_serial]
    rw [if_neg hk']
  have heq := pivotLoop_agree hstep (serialStep_spec norm row_counts.sum me') k.toNat hkn
  exact ⟨_, _, hrun k hk, hserial, heq, fun g => by rw [heq]⟩

/-- Distributed against serial at a concrete matrix: five rows split 2 + 3, three pivots requested. -/
theorem qrcp_distributed_matches_serial_witness :
    (qrcp_pivots_transpose sampleNorm (.distributed [2, 3]) 0 3
        = .ok [(1, 0), (2, 1), (4, 1)]
      ∧ qrcp_pivots_transpose_serial sampleNorm 5 0 3 = .ok [(1, 0), (2, 0), (4, 0)])
    ∧ ∃ out_d out_s,
      qrcp_pivots_transpose sampleNorm (.distributed [2, 3]) 0 3 = .ok out_d
      ∧ qrcp_pivots_transpose_serial sampleNorm ([2, 3] : List Nat).sum 0 3 = .ok out_s
      ∧ out_d.map Prod.fst = out_s.map Prod.fst
      ∧ ∀ g, g ∈ out_d.map Prod.fst ↔ g ∈ out_s.map Prod.fst :=
  ⟨⟨rfl, rfl⟩, qrcp_distributed_matches_serial sampleNorm [2, 3] 0 0 3 (by decide)⟩

/-- C10: at every pivot step of `qrcp_pivots_transpose` the selected row has
the largest pivoting norm among the rows that remain, and among the remaining
rows of that same norm it has the lowest global row index.  In particular, if
all rows have equal pivoting norms at the first step (as for identical rows),
the first pivot returned is global row 0. -/
theorem qrcp_tie_break (norm : List Nat → Nat → β) (layout : Layout) (me : Nat)
    (k : Int) (hk : k ≤ layout.totalRows) :
    ∃ out, qrcp_pivots_transpose norm layout me k = .ok out
      ∧ (∀ i p, (out.map Prod.fst)[i]? = some p →
          ∀ j, j < layout.totalRows → j ∉ (out.take i).map Prod.fst →
            norm ((out.take i).map Prod.fst) j ≤ norm ((out.take i).map Prod.fst) p
            ∧ (norm ((out.take i).map Prod.fst) j = norm ((out.take i).map Prod.fst) p
                → p ≤ j))
      ∧ (0 < k →
          (∀ a b, a < layout.totalRows → b < layout.totalRows → norm [] a = norm [] b) →
          (out.map Prod.fst)[0]? = some 0) := by
  obtain ⟨step, hstep, hrun⟩ := qrcp_eq_loop norm layout me
  have hkn : k.toNat ≤ layout.totalRows := by omega
  obtain ⟨hlen, _, _⟩ := pivotLoop_spec hstep k.toNat hkn
  have hat : ∀ i, i < k.toNat → ∃ c : Candidate β,
      ((pivotLoop step k.toNat).map Prod.fst)[i]? = some c.row
      ∧ c.value = norm (((pivotLoop step k.toNat).take i).map Prod.fst) c.row
      ∧ ∀ j, j < layout.totalRows →
          j ∉ ((pivotLoop step k.toNat).take i).map Prod.fst →
          norm (((pivotLoop step k.toNat).take i).map Prod.fst) j ≤ c.value
          ∧ (norm (((pivotLoop step k.toNat).take i).map Prod.fst) j = c.value
              → c.row ≤ j) := by
    intro i hi
    obtain ⟨c, hc, hget⟩ := pivotLoop_getElem hstep k.toNat hkn i hi
    obtain ⟨hleni, _, _⟩ := pivotLoop_spec hstep i (by omega)
    have hex := exists_unchosen layout.totalRows ((pivotLoop step i).map Prod.fst)
      (by rw [List.length_map, hleni]; omega)
    obtain ⟨c', hc', _, _, hval, _, hmin⟩ := hstep _ hex
    rw [hc] at hc'
    cases hc'
    rw [pivotLoop_take hstep k.toNat hkn i (by omega)]
    refine ⟨c, ?_, hval, hmin⟩
    rw [List.getElem?_map, hget]
    rfl
  refine ⟨_, hrun k hk, ?_, ?_⟩
  · intro i p hp j hj hnj
    have hi : i < k.toNat := by
      have hsome : i < ((pivotLoop step k.toNat).map Prod.fst).length := by
        by_contra hge
        rw [List.getElem?_eq_none (not_lt.mp hge)] at hp
        cases hp
      rw [List.length_map, hlen] at hsome
      exact hsome
    obtain ⟨c, hget, hval, hmin⟩ := hat i hi
    rw [hget] at hp
    cases hp
    rw [← hval]
    exact hmin j hj hnj
  · intro hpos hsame
    have hi : 0 < k.toNat := by omega
    obtain ⟨c, hget, hval, hmin⟩ := hat 0 hi
    have hN : 0 < layout.totalRows := by omega
    have hmem : (0 : Nat) ∉ ((pivotLoop step k.toNat).take 0).map Prod.fst := by simp
    obtain ⟨_, h2⟩ := hmin 0 hN hmem
    rw [List.take_zero, List.map_nil] at hval h2
    have hclt : c.row < layout.totalRows := by
      obtain ⟨hl, _, hall⟩ := pivotLoop_spec hstep k.toNat hkn
      have hmemc : c.row ∈ (pivotLoop step k.toNat).map Prod.fst :=
        List.mem_iff_getElem?.mpr ⟨0, hget⟩
      obtain ⟨p, hp, hpe⟩ := List.mem_map.mp hmemc
      rw [← hpe]
      exact (hall p hp).1
    have hzero : c.row = 0 := by
      have := h2 (by rw [hval]; exact hsame 0 c.row hN hclt)
      omega
    rw [hget, hzero]

/-- Tie-break at a concrete matrix: three identical rows split 1 + 2, two pivots
requested; the pivots are rows 0 and 1. -/
theorem qrcp_tie_break_witness :
    qrcp_pivots_transpose sampleFlatNorm (.distributed [1, 2]) 0 2 = .ok [(0, 0), (1, 1)]
    ∧ ∃ out, qrcp_pivots_transpose sampleFlatNorm (.distributed [1, 2]) 0 2 = .ok out
      ∧ (∀ i p, (out.map Prod.fst)[i]? = some p →
          ∀ j, j < (Layout.distributed [1, 2]).totalRows →
            j ∉ (out.take i).map Prod.fst →
            sampleFlatNorm ((out.take i).map Prod.fst) j
                ≤ sampleFlatNorm ((out.take i).map Prod.fst) p
            ∧ (sampleFlatNorm ((out.take i).map Prod.fst) j
                = sampleFlatNorm ((out.take i).map Prod.fst) p → p ≤ j))
      ∧ ((0 : Int) < 2 →
          (∀ a b, a < (Layout.distributed [1, 2]).totalRows →
            b < (Layout.distributed [1, 2]).totalRows →
            sampleFlatNorm [] a = sampleFlatNorm [] b) →
          (out.map Prod.fst)[0]? = some 0) :=
  ⟨rfl, qrcp_tie_break sampleFlatNorm (.distributed [1, 2]) 0 2 (by decide)⟩

end EntryFacts

/-! ## The pivoted-QR selector: pivot counts at the boundary -/

section BoundaryFacts

variable {β : Type} [LinearOrder β]

/-- C11: with `pivots_requested` larger than the total number of rows,
`qrcp_pivots_transpose` stops on an assertion and returns no pivots, whatever
the layout, hence on the serial, the distributed-balanced and the
distributed-unbalanced path; so do the two path members themselves. -/
theorem qrcp_too_many_pivots (norm : List Nat → Nat → β) (layout : Layout) (me : Nat)
    (row_counts : List Nat) (rows : Nat) (k k_s k_d : Int)
    (hk : k > layout.totalRows) (hs : k_s > rows) (hd : k_d > row_counts.sum) :
    (∃ e, qrcp_pivots_transpose norm layout me k = .error (.assertion e))
    ∧ (∃ e, qrcp_pivots_transpose_serial norm rows me k_s = .error (.assertion e))
    ∧ (∃ e, qrcp_pivots_transpose_distributed norm row_counts k_d
          = .error (.assertion e)) := by
  refine ⟨?_, ⟨_, by simp only [qrcp_pivots_transpose_serial]; rw [if_pos hs]⟩,
    ⟨_, by simp only [qrcp_pivots_transpose_distributed]; rw [if_pos hd]⟩⟩
  cases layout with
  | replicated num_procs n =>
    have hk' : k > (n : Int) := hk
    exact ⟨_, by simp only [qrcp_pivots_transpose, qrcp_pivots_transpose_serial]
                 rw [if_pos hk']⟩
  | distributed counts =>
    have hk' : k > (counts.sum : Int) := hk
    exact ⟨_, by simp only [qrcp_pivots_transpose, qrcp_pivots_transpose_distributed]
                 rw [if_pos hk']⟩

/-- Too many pivots at concrete matrices: six pivots of five rows, on a
replicated matrix, on a 2 + 3 split and on a 3 + 3 split asked for seven. -/
theorem qrcp_too_many_pivots_witness :
    (qrcp_pivots_transpose sampleNorm (.distributed [2, 3]) 0 6
        = .error (.assertion "pivots_requested <= total rows")
      ∧ qrcp_pivots_transpose sampleNorm (.distributed [3, 3]) 0 7
        = .error (.assertion "pivots_requested <= total rows")
      ∧ qrcp_pivots_transpose sampleNorm (.replicated 2 5) 0 6
        = .error (.assertion "pivots_requested <= numRows()"))
    ∧ ((∃ e, qrcp_pivots_transpose sampleNorm (.distributed [2, 3]) 0 6
          = .error (.assertion e))
      ∧ (∃ e, qrcp_pivots_transpose_serial sampleNorm 5 0 6 = .error (.assertion e))
      ∧ (∃ e, qrcp_pivots_transpose_distributed sampleNorm [3, 3] 7
            = .error (.assertion e))) :=
  ⟨⟨rfl, rfl, rfl⟩,
   qrcp_too_many_pivots sampleNorm (.distributed [2, 3]) 0 [3, 3] 5 6 6 7
     (by decide) (by decide) (by decide)⟩

/-- C12: on a matrix with at least one row, `qrcp_pivots_transpose` with
`pivots_requested == 0` completes without error and writes no entry of
`row_pivot` or `row_pivot_owner`: the list of written pairs is empty. -/
theorem qrcp_zero_pivots (norm : List Nat → Nat → β) (layout : Layout) (me : Nat)
    (hrows : 0 < layout.totalRows) :
    qrcp_pivots_transpose norm layout me 0 = .ok [] := by
  obtain ⟨step, _, hrun⟩ := qrcp_eq_loop norm layout me
  have h0 : (0 : Int) ≤ layout.totalRows := by omega
  rw [hrun 0 h0]
  rfl

/-- Zero pivots at a concrete matrix: five rows split 2 + 3. -/
theorem qrcp_zero_pivots_witness :
    0 < (Layout.distributed [2, 3]).totalRows
    ∧ qrcp_pivots_transpose sampleNorm (.distributed [2, 3]) 1 0 = .ok [] :=
  ⟨by decide, qrcp_zero_pivots sampleNorm (.distributed [2, 3]) 1 (by decide)⟩

end BoundaryFacts

/-! ## `setSize`: what it leaves alone, and how capacity evolves -/

theorem setSize_ok_flags {α : Type} (h h' : Heap α) (m m' : Matrix)
    (num_rows num_cols : Int)
    (hok : Matrix.setSize h m num_rows num_cols = .ok (h', m')) :
    m'.d_distributed = m.d_distributed ∧ m'.d_num_procs = m.d_num_procs
      ∧ m'.d_owns_data = m.d_owns_data := by
  by_cases hgt : m.d_alloc_size < imul num_rows num_cols
  · cases hown : m.d_owns_data
    · rw [setSize_grow_borrowed h m num_rows num_cols hgt hown] at hok
      cases hok
    · rw [setSize_grow_owned h m num_rows num_cols hgt hown] at hok
      injection hok with hok
      injection hok with _ hm
      subst hm
      exact ⟨rfl, rfl, hown⟩
  · rw [setSize_small h m num_rows num_cols (not_lt.mp hgt)] at hok
    injection hok with hok
    injection hok with _ hm
    subst hm
    exact ⟨rfl, rfl, rfl⟩

/-- C20: a successful `setSize` leaves `d_distributed`, `d_num_procs` and
`d_owns_data` as they were, and it is idempotent: the same call issued again
right after it succeeds, on an owning and on a non-owning matrix alike, and
returns the very same object and free store. -/
theorem setSize_frame_idempotent {α : Type} (h h' : Heap α) (m m' : Matrix)
    (num_rows num_cols : Int)
    (hok : Matrix.setSize h m num_rows num_cols = .ok (h', m')) :
    m'.d_distributed = m.d_distributed ∧ m'.d_num_procs = m.d_num_procs
      ∧ m'.d_owns_data = m.d_owns_data
      ∧ Matrix.setSize h' m' num_rows num_cols = .ok (h', m') := by
  obtain ⟨h1, h2, h3⟩ := setSize_ok_flags h h' m m' num_rows num_cols hok
  obtain ⟨hr, hc, hle⟩ := setSize_ok_invariant h h' m m' num_rows num_cols hok
  refine ⟨h1, h2, h3, ?_⟩
  rw [setSize_small h' m' num_rows num_cols hle, ← hr, ← hc]

/-- Frame and idempotence at a concrete state: growing the owning 2 x 3 matrix
to 3 x 3, twice. -/
theorem setSize_frame_idempotent_witness :
    Matrix.setSize sampleHeap sampleOwned 3 3
        = .ok ([none, some (List.replicate 9 none)],
               { sampleOwned with d_mat := some 1, d_num_rows := 3, d_num_cols := 3,
                                  d_alloc_size := 9 })
    ∧ Matrix.setSize ([none, some (List.replicate 9 none)] : Heap Int)
          { sampleOwned with d_mat := some 1, d_num_rows := 3, d_num_cols := 3,
                             d_alloc_size := 9 } 3 3
        = .ok ([none, some (List.replicate 9 none)],
               { sampleOwned with d_mat := some 1, d_num_rows := 3, d_num_cols := 3,
                                  d_alloc_size := 9 }) :=
  ⟨rfl, (setSize_frame_idempotent sampleHeap _ sampleOwned _ 3 3 rfl).2.2.2⟩

theorem setSize_owned_capacity {α : Type} (h : Heap α) (m : Matrix)
    (hown : m.d_owns_data = true) (num_rows num_cols : Int) :
    ∃ h1 m1, Matrix.setSize h m num_rows num_cols = .ok (h1, m1)
      ∧ m1.d_alloc_size = max m.d_alloc_size (imul num_rows num_cols)
      ∧ m1.d_owns_data = true := by
  by_cases hgt : m.d_alloc_size < imul num_rows num_cols
  · exact ⟨_, _, setSize_grow_owned h m num_rows num_cols hgt hown,
      (max_eq_right (le_of_lt hgt)).symm, hown⟩
  · exact ⟨_, _, setSize_small h m num_rows num_cols (not_lt.mp hgt),
      (max_eq_left (not_lt.mp hgt)).symm, hown⟩

theorem le_largestRequest (start : Int) (shapes : List (Int × Int)) :
    start ≤ largestRequest start shapes
      ∧ ∀ s ∈ shapes, imul s.1 s.2 ≤ largestRequest start shapes := by
  induction shapes generalizing start with
  | nil => exact ⟨le_refl _, fun s hs => by cases hs⟩
  | cons t rest ih =>
    obtain ⟨h1, h2⟩ := ih (max start (imul t.1 t.2))
    simp only [largestRequest, List.foldl_cons] at h1 h2 ⊢
    refine ⟨le_trans (le_max_left _ _) h1, ?_⟩
    intro s hs
    rcases List.mem_cons.mp hs with hst | hst
    · rw [hst]; exact le_trans (le_max_right _ _) h1
    · exact h2 s hst

theorem setSizes_owned {α : Type} (shapes : List (Int × Int)) (h : Heap α) (m : Matrix)
    (hown : m.d_owns_data = true) :
    ∃ h' m', Matrix.setSizes h m shapes = .ok (h', m')
      ∧ m'.d_owns_data = true
      ∧ m'.d_alloc_size = largestRequest m.d_alloc_size shapes := by
  induction shapes generalizing h m with
  | nil => exact ⟨h, m, rfl, hown, rfl⟩
  | cons t rest ih =>
    obtain ⟨r, c⟩ := t
    obtain ⟨h1, m1, hstep, hcap, hown1⟩ := setSize_owned_capacity h m hown r c
    obtain ⟨h', m', hrest, hown', hcap'⟩ := ih h1 m1 hown1
    refine ⟨h', m', ?_, hown', ?_⟩
    · simp only [Matrix.setSizes, hstep]
      exact hrest
    · rw [hcap', hcap]
      simp only [largestRequest, List.foldl_cons]

/-- C19: on an owning matrix `setSize` always succeeds and leaves the capacity
at `max(old d_alloc_size, num_rows*num_cols)`, the product being the `int`
product the code computes.  Hence over any sequence of `setSize` calls the
capacity is the largest of the initial capacity and the products requested, it
never decreases along the sequence, and a later `setSize` to a shape whose
product is at most one requested so far does not reallocate. -/
theorem setSize_capacity_grows {α : Type} (h : Heap α) (m : Matrix)
    (hown : m.d_owns_data = true) (num_rows num_cols : Int)
    (shapes : List (Int × Int)) :
    (∃ h1 m1, Matrix.setSize h m num_rows num_cols = .ok (h1, m1)
        ∧ m1.d_alloc_size = max m.d_alloc_size (imul num_rows num_cols))
    ∧ ∃ h' m', Matrix.setSizes h m shapes = .ok (h', m')
        ∧ m'.d_alloc_size = largestRequest m.d_alloc_size shapes
        ∧ m.d_alloc_size ≤ m'.d_alloc_size
        ∧ (∀ earlier later h_mid m_mid, shapes = earlier ++ later →
            Matrix.setSizes h m earlier = .ok (h_mid, m_mid) →
            m.d_alloc_size ≤ m_mid.d_alloc_size
              ∧ m_mid.d_alloc_size ≤ m'.d_alloc_size)
        ∧ (∀ r c, (∃ s ∈ shapes, imul r c ≤ imul s.1 s.2) →
            ∃ m'', Matrix.setSize h' m' r c = .ok (h', m'')
              ∧ m''.d_mat = m'.d_mat ∧ m''.d_alloc_size = m'.d_alloc_size) := by
  constructor
  · obtain ⟨h1, m1, hstep, hcap, _⟩ := setSize_owned_capacity h m hown num_rows num_cols
    exact ⟨h1, m1, hstep, hcap⟩
  · obtain ⟨h', m', hrun, _, hcap⟩ := setSizes_owned shapes h m hown
    obtain ⟨hstart, hreq⟩ := le_largestRequest m.d_alloc_size shapes
    refine ⟨h', m', hrun, hcap, by rw [hcap]; exact hstart, ?_, ?_⟩
    · intro earlier later h_mid m_mid hsplit hmid
      obtain ⟨h2, m2, hrun2, _, hcap2⟩ := setSizes_owned earlier h m hown
      rw [hrun2] at hmid
      injection hmid with hmid
      injection hmid with _ hm
      subst hm
      obtain ⟨hstart2, _⟩ := le_largestRequest m.d_alloc_size earlier
      refine ⟨by rw [hcap2]; exact hstart2, ?_⟩
      rw [hcap, hcap2, hsplit]
      simp only [largestRequest, List.foldl_append]
      exact (le_largestRequest _ later).1
    · rintro r c ⟨s, hs, hle⟩
      have hfits : imul r c ≤ m'.d_alloc_size := by
        rw [hcap]; exact le_trans hle (hreq s hs)
      exact ⟨_, setSize_small h' m' r c hfits, rfl, rfl⟩

/-- Capacity at a concrete state: the owning 2 x 3 matrix resized to 3 x 3,
then 1 x 2, then 2 x 4 ends with capacity 9 and can take 4 x 2 in place. -/
theorem setSize_capacity_grows_witness :
    Matrix.setSizes sampleHeap sampleOwned [(3, 3), (1, 2), (2, 4)]
        = .ok ([none, some (List.replicate 9 none)],
               { sampleOwned with d_mat := some 1, d_num_rows := 2, d_num_cols := 4,
                                  d_alloc_size := 9 })
    ∧ sampleOwned.d_owns_data = true
    ∧ ∃ h1 m1, Matrix.setSize sampleHeap sampleOwned 3 3 = .ok (h1, m1)
        ∧ m1.d_alloc_size = max sampleOwned.d_alloc_size (imul 3 3) :=
  ⟨rfl, rfl,
   (setSize_capacity_grows sampleHeap sampleOwned rfl 3 3 [(3, 3), (1, 2), (2, 4)]).1⟩

/-! ## Element access: inside the buffer, one cell per index pair -/

theorem flat_index_bounds (m : Matrix) (row col : Int)
    (hr0 : 0 ≤ row) (hr : row < m.numRows) (hc0 : 0 ≤ col) (hc : col < m.numColumns) :
    0 ≤ row * m.numColumns + col
      ∧ row * m.numColumns + col < m.numRows * m.numColumns := by
  have h1 : 0 ≤ row * m.numColumns := mul_nonneg hr0 (le_trans hc0 (le_of_lt hc))
  have h2 : (row + 1) * m.numColumns ≤ m.numRows * m.numColumns :=
    mul_le_mul_of_nonneg_right (by omega) (le_trans hc0 (le_of_lt hc))
  have h3 : (row + 1) * m.numColumns = row * m.numColumns + m.numColumns := by ring
  constructor <;> omega

theorem fits_of_invariant (m : Matrix) (row col : Int)
    (hinv : m.d_num_rows * m.d_num_cols ≤ m.d_alloc_size) (hfit : fitsInt m.d_alloc_size)
    (hr0 : 0 ≤ row) (hr : row < m.numRows) (hc0 : 0 ≤ col) (hc : col < m.numColumns) :
    fitsInt (m.numRows * m.numColumns) := by
  obtain ⟨hlo, hhi⟩ := flat_index_bounds m row col hr0 hr hc0 hc
  have hinv' : m.numRows * m.numColumns ≤ m.d_alloc_size := hinv
  unfold fitsInt at hfit ⊢
  constructor <;> omega

theorem flat_index_injective (m : Matrix) (row col row' col' : Int)
    (hc0 : 0 ≤ col) (hc : col < m.numColumns)
    (hc0' : 0 ≤ col') (hc' : col' < m.numColumns)
    (heq : row * m.numColumns + col = row' * m.numColumns + col') :
    row = row' ∧ col = col' := by
  have hrow : row = row' := by
    rcases lt_trichotomy row row' with hlt | heq' | hgt
    · exfalso
      have h2 : (row + 1) * m.numColumns ≤ row' * m.numColumns :=
        mul_le_mul_of_nonneg_right (by omega) (by omega)
      have h3 : (row + 1) * m.numColumns = row * m.numColumns + m.numColumns := by ring
      omega
    · exact heq'
    · exfalso
      have h2 : (row' + 1) * m.numColumns ≤ row * m.numColumns :=
        mul_le_mul_of_nonneg_right (by omega) (by omega)
      have h3 : (row' + 1) * m.numColumns = row' * m.numColumns + m.numColumns := by ring
      omega
  subst hrow
  exact ⟨rfl, by omega⟩

theorem read_of_block {α : Type} (h : Heap α) (p : Nat) (b : Block α) (idx : Int)
    (hblk : h.get? p = some (some b)) (h0 : 0 ≤ idx) :
    Heap.read h ⟨some p, idx⟩ = b.get? idx.toNat := by
  simp only [Heap.read, hblk, if_pos h0]

theorem item_in_storage (debug : Bool) (m : Matrix) (row col : Int)
    (hinv : m.d_num_rows * m.d_num_cols ≤ m.d_alloc_size) (hfit : fitsInt m.d_alloc_size)
    (hr0 : 0 ≤ row) (hr : row < m.numRows) (hc0 : 0 ≤ col) (hc : col < m.numColumns) :
    Matrix.item debug m row col = .ok ⟨m.d_mat, row * m.d_num_cols + col⟩
    ∧ Matrix.item_const debug m row col = .ok ⟨m.d_mat, row * m.d_num_cols + col⟩
    ∧ 0 ≤ row * m.d_num_cols + col
    ∧ row * m.d_num_cols + col < m.d_num_rows * m.d_num_cols
    ∧ m.d_num_rows * m.d_num_cols ≤ m.d_alloc_size
    ∧ ∀ (α : Type) (h : Heap α) (p : Nat) (b : Block α),
        m.d_mat = some p → h.get? p = some (some b) →
        m.d_alloc_size ≤ (b.length : Int) →
        ∃ cell, Heap.read h ⟨m.d_mat, row * m.d_num_cols + col⟩ = some cell := by
  have hfits := fits_of_invariant m row col hinv hfit hr0 hr hc0 hc
  have hexact := flat_index_exact m row col hr0 hr hc0 hc hfits
  obtain ⟨hlo, hhi⟩ := flat_index_bounds m row col hr0 hr hc0 hc
  have hitem := item_in_range debug m row col hr0 hr hc0 hc
  rw [hexact] at hitem
  refine ⟨hitem, hitem, hlo, hhi, hinv, ?_⟩
  intro α h p b hmat hblk hcap
  have hlo' : 0 ≤ row * m.d_num_cols + col := hlo
  rw [hmat, read_of_block h p b _ hblk hlo']
  have hlt : (row * m.d_num_cols + col).toNat < b.length := by
    have hhi' : row * m.d_num_cols + col < m.d_num_rows * m.d_num_cols := hhi
    omega
  exact ⟨b[(row * m.d_num_cols + col).toNat], by
    rw [List.get?_eq_getElem?, List.getElem?_eq_getElem hlt]⟩

/-- C17: element access stays inside the buffer.  On a state with
`d_num_rows*d_num_cols <= d_alloc_size` (`d_alloc_size` being an `int`), for
in-range `row` and `col` the flat index `row*d_num_cols + col` that `item`
computes is the exact one and satisfies
`0 <= row*d_num_cols + col < d_num_rows*d_num_cols <= d_alloc_size`; so in a
buffer of `d_alloc_size` cells the access designates a cell. -/
theorem item_stays_in_storage (debug : Bool) (m : Matrix) (row col : Int)
    (hinv : m.d_num_rows * m.d_num_cols ≤ m.d_alloc_size) (hfit : fitsInt m.d_alloc_size)
    (hr0 : 0 ≤ row) (hr : row < m.numRows) (hc0 : 0 ≤ col) (hc : col < m.numColumns) :
    Matrix.item debug m row col = .ok ⟨m.d_mat, row * m.d_num_cols + col⟩
    ∧ Matrix.item_const debug m row col = .ok ⟨m.d_mat, row * m.d_num_cols + col⟩
    ∧ 0 ≤ row * m.d_num_cols + col
    ∧ row * m.d_num_cols + col < m.d_num_rows * m.d_num_cols
    ∧ m.d_num_rows * m.d_num_cols ≤ m.d_alloc_size
    ∧ ∀ (α : Type) (h : Heap α) (p : Nat) (b : Block α),
        m.d_mat = some p → h.get? p = some (some b) →
        m.d_alloc_size ≤ (b.length : Int) →
        ∃ cell, Heap.read h ⟨m.d_mat, row * m.d_num_cols + col⟩ = some cell :=
  item_in_storage debug m row col hinv hfit hr0 hr hc0 hc

/-- Access inside the buffer at a concrete state: element (1, 2) of the
borrowed 2 x 3 matrix is cell 5 of a block of six. -/
theorem item_stays_in_storage_witness :
    (sampleBorrowed.d_num_rows * sampleBorrowed.d_num_cols ≤ sampleBorrowed.d_alloc_size
      ∧ fitsInt sampleBorrowed.d_alloc_size)
    ∧ Matrix.item true sampleBorrowed 1 2 = .ok ⟨some 0, 5⟩
    ∧ (5 : Int) < sampleBorrowed.d_num_rows * sampleBorrowed.d_num_cols
    ∧ Heap.read sampleHeap ⟨some 0, 5⟩ = some (some 23) :=
  ⟨by decide,
   (item_stays_in_storage true sampleBorrowed 1 2 (by decide) (by decide)
      (by decide) (by decide) (by decide) (by decide)).1,
   by decide, rfl⟩

/-- A state reached through an `int` product that wrapped: `setSize(65536,
65536)` on an empty owning matrix computes `new_size == 0`, allocates nothing
and records the shape; on that state the `int` product of the shape is within
the capacity while `item(1, 0)` designates cell 65536 of a buffer of none. -/
theorem item_escapes_after_wrapped_product :
    Matrix.setSize ([] : Heap Int)
        { sampleOwned with d_mat := none, d_num_rows := 0, d_num_cols := 0,
                           d_alloc_size := 0 } 65536 65536
      = .ok ([], { sampleOwned with d_mat := none, d_num_rows := 65536,
                                    d_num_cols := 65536, d_alloc_size := 0 })
    ∧ imul 65536 65536 ≤ (0 : Int)
    ∧ Matrix.item true { sampleOwned with d_mat := none, d_num_rows := 65536,
                                          d_num_cols := 65536, d_alloc_size := 0 } 1 0
      = .ok ⟨none, 65536⟩ :=
  ⟨rfl, by decide, rfl⟩

theorem store_of_block {α : Type} (h : Heap α) (p : Nat) (b : Block α) (idx : Int) (v : α)
    (hblk : h.get? p = some (some b)) (h0 : 0 ≤ idx) (hlt : idx.toNat < b.length) :
    Heap.store h ⟨some p, idx⟩ v = some (h.set p (some (b.set idx.toNat (some v)))) := by
  simp only [Heap.store, hblk, h0, hlt, and_self, if_true]

theorem get?_set_block {α : Type} (h : Heap α) (p : Nat) (b b' : Block α)
    (hblk : h.get? p = some (some b)) :
    (h.set p (some b')).get? p = some (some b') := by
  rw [List.get?_eq_getElem?] at hblk ⊢
  obtain ⟨hp, _⟩ := List.getElem?_eq_some.mp hblk
  exact List.getElem?_set_self hp

/-- C18: writing one element does not disturb any other.  On a matrix whose
buffer is a live block of at least `d_alloc_size` cells, with
`d_num_rows*d_num_cols <= d_alloc_size`, two different in-range index pairs
have different flat indices; after `item(row, col) = v` the element
(`row`, `col`) reads `v`, the element (`row'`, `col'`) reads what it read
before, and the object, hence `numRows()`, `numColumns()`, the capacity and
the flags, is unchanged. -/
theorem item_write_frame {α : Type} (debug : Bool) (h : Heap α) (m : Matrix)
    (p : Nat) (b : Block α) (row col row' col' : Int) (v : α)
    (hmat : m.d_mat = some p) (hblk : h.get? p = some (some b))
    (hcap : m.d_alloc_size ≤ (b.length : Int))
    (hinv : m.d_num_rows * m.d_num_cols ≤ m.d_alloc_size) (hfit : fitsInt m.d_alloc_size)
    (hr0 : 0 ≤ row) (hr : row < m.numRows) (hc0 : 0 ≤ col) (hc : col < m.numColumns)
    (hr0' : 0 ≤ row') (hr' : row' < m.numRows)
    (hc0' : 0 ≤ col') (hc' : col' < m.numColumns)
    (hne : ¬ (row = row' ∧ col = col')) :
    row * m.d_num_cols + col ≠ row' * m.d_num_cols + col'
    ∧ Matrix.item_const debug m row col = .ok ⟨m.d_mat, row * m.d_num_cols + col⟩
    ∧ Matrix.item_const debug m row' col' = .ok ⟨m.d_mat, row' * m.d_num_cols + col'⟩
    ∧ ∃ h', Matrix.assign debug h m row col v = .ok (h', m)
        ∧ Heap.read h' ⟨m.d_mat, row * m.d_num_cols + col⟩ = some (some v)
        ∧ Heap.read h' ⟨m.d_mat, row' * m.d_num_cols + col'⟩
            = Heap.read h ⟨m.d_mat, row' * m.d_num_cols + col'⟩ := by
  obtain ⟨hitem, hitemc, hlo, hhi, _, _⟩ :=
    item_in_storage debug m row col hinv hfit hr0 hr hc0 hc
  obtain ⟨_, hitemc', hlo', hhi', _, _⟩ :=
    item_in_storage debug m row' col' hinv hfit hr0' hr' hc0' hc'
  have hdiff : row * m.d_num_cols + col ≠ row' * m.d_num_cols + col' := fun heq =>
    hne (flat_index_injective m row col row' col' hc0 hc hc0' hc' heq)
  have hlt : (row * m.d_num_cols + col).toNat < b.length := by omega
  have hstore := store_of_block h p b _ v hblk hlo hlt
  refine ⟨hdiff, hitemc, hitemc',
    h.set p (some (b.set (row * m.d_num_cols + col).toNat (some v))), ?_, ?_, ?_⟩
  · simp only [Matrix.assign, hitem, hmat, hstore, bind, Except.bind, pure, Except.pure]
  · rw [hmat, read_of_block _ p _ _ (get?_set_block h p b _ hblk) hlo,
      List.get?_eq_getElem?]
    exact List.getElem?_set_self hlt
  · rw [hmat, read_of_block _ p _ _ (get?_set_block h p b _ hblk) hlo',
      read_of_block h p b _ hblk hlo', List.get?_eq_getElem?, List.get?_eq_getElem?]
    exact List.getElem?_set_ne (by omega)

/-- One write at a concrete state: storing 99 at (0, 1) of the borrowed 2 x 3
matrix leaves 23 at (1, 2). -/
theorem item_write_frame_witness :
    Matrix.assign true sampleHeap sampleBorrowed 0 1 99
        = .ok ([some [some 11, some 99, some 13, some 21, some 22, some 23]],
               sampleBorrowed)
    ∧ (0 : Int) * sampleBorrowed.d_num_cols + 1 ≠ 1 * sampleBorrowed.d_num_cols + 2
    ∧ ∃ h', Matrix.assign true sampleHeap sampleBorrowed 0 1 99 = .ok (h', sampleBorrowed)
        ∧ Heap.read h' ⟨sampleBorrowed.d_mat, 0 * sampleBorrowed.d_num_cols + 1⟩
            = some (some 99)
        ∧ Heap.read h' ⟨sampleBorrowed.d_mat, 1 * sampleBorrowed.d_num_cols + 2⟩
            = Heap.read sampleHeap ⟨sampleBorrowed.d_mat, 1 * sampleBorrowed.d_num_cols + 2⟩ :=
  have hw := item_write_frame true sampleHeap sampleBorrowed 0
    [some 11, some 12, some 13, some 21, some 22, some 23] 0 1 1 2 99 rfl rfl
    (by decide) (by decide) (by decide) (by decide) (by decide) (by decide) (by decide)
    (by decide) (by decide) (by decide) (by decide) (by decide)
  ⟨rfl, hw.1, hw.2.2.2⟩

/-! ## The product kernel -/

theorem create_of_pos {α : Type} (num_procs : Int) (h : Heap α) (num_rows num_cols : Int)
    (distributed : Bool) (hr : 0 < num_rows) (hc : 0 < num_cols) :
    Matrix.create num_procs h num_rows num_cols distributed
      = Matrix.setSize h
          { d_mat := none, d_num_rows := 0, d_num_cols := 0, d_alloc_size := 0,
            d_distributed := distributed, d_num_procs := num_procs, d_owns_data := true }
          num_rows num_cols := by
  simp only [Matrix.create, precondition, gt_iff_lt, hr, hc, decide_True, if_true, bind,
    Except.bind]

theorem create_refuses {α : Type} (num_procs : Int) (h : Heap α) (num_rows num_cols : Int)
    (distributed : Bool) (hbad : ¬ (0 < num_rows ∧ 0 < num_cols)) :
    ∃ e, Matrix.create num_procs h num_rows num_cols distributed
      = .error (.assertion e) := by
  by_cases hr : 0 < num_rows
  · have hc : ¬ 0 < num_cols := fun hc => hbad ⟨hr, hc⟩
    exact ⟨_, by
      simp only [Matrix.create, precondition, gt_iff_lt, hr, hc, decide_True,
        decide_False, if_true, bind, Except.bind]
      rfl⟩
  · exact ⟨_, by
      simp only [Matrix.create, precondition, gt_iff_lt, hr, decide_False, bind,
        Except.bind]
      rfl⟩

theorem create_pos {α : Type} (num_procs : Int) (h : Heap α) (num_rows num_cols : Int)
    (distributed : Bool) (hr : 0 < num_rows) (hc : 0 < num_cols)
    (hpos : 0 < imul num_rows num_cols) :
    Matrix.create num_procs h num_rows num_cols distributed
      = .ok (h ++ [some (List.replicate (imul num_rows num_cols).toNat none)],
             { d_mat := some h.length, d_num_rows := num_rows, d_num_cols := num_cols,
               d_alloc_size := imul num_rows num_cols, d_distributed := distributed,
               d_num_procs := num_procs, d_owns_data := true }) := by
  rw [create_of_pos num_procs h num_rows num_cols distributed hr hc,
    setSize_grow_owned _ _ _ _ hpos rfl]
  rfl

theorem create_nonpos {α : Type} (num_procs : Int) (h : Heap α) (num_rows num_cols : Int)
    (distributed : Bool) (hr : 0 < num_rows) (hc : 0 < num_cols)
    (hle : imul num_rows num_cols ≤ 0) :
    Matrix.create num_procs h num_rows num_cols distributed
      = .ok (h, { d_mat := none, d_num_rows := num_rows, d_num_cols := num_cols,
                  d_alloc_size := 0, d_distributed := distributed,
                  d_num_procs := num_procs, d_owns_data := true }) := by
  rw [create_of_pos num_procs h num_rows num_cols distributed hr hc,
    setSize_small _ _ _ _ hle]

theorem read_append {α : Type} (h extra : Heap α) (base : Option Nat) (idx : Int)
    (hin : ∀ p, base = some p → p < h.length) :
    Heap.read (h ++ extra) ⟨base, idx⟩ = Heap.read h ⟨base, idx⟩ := by
  cases base with
  | none => rfl
  | some p =>
    have hp := hin p rfl
    simp only [Heap.read, List.get?_eq_getElem?, List.getElem?_append_left hp]

theorem item_const_unchecked (m : Matrix) (row col : Int) :
    Matrix.item_const false m row col
      = .ok ⟨m.d_mat, iadd (imul row m.d_num_cols) col⟩ := by
  simp only [Matrix.item_const, CAROM_ASSERT, Bool.false_and, bind, Except.bind, pure,
    Except.pure]
  rfl

theorem value_eq_read {α : Type} (h : Heap α) (m : Matrix) (row col : Int) :
    Matrix.value h m row col
      = (Heap.read h ⟨m.d_mat, iadd (imul row m.d_num_cols) col⟩).join := by
  simp only [Matrix.value, item_const_unchecked]

theorem value_append {α : Type} (h extra : Heap α) (m : Matrix) (row col : Int)
    (hin : ∀ p, m.d_mat = some p → p < h.length) :
    Matrix.value (h ++ extra) m row col = Matrix.value h m row col := by
  rw [value_eq_read, value_eq_read, read_append h extra _ _ hin]

theorem fill_spec {α : Type} (h : Heap α) (p : Nat) (b : Block α) (vals : List (Option α))
    (hblk : h.get? p = some (some b)) (hlen : vals.length ≤ b.length) :
    ∃ h' b', Heap.fill h (some p) vals = some h'
      ∧ h'.get? p = some (some b') ∧ b'.length = b.length
      ∧ ∀ n, n < vals.length → Heap.read h' ⟨some p, (n : Int)⟩ = vals.get? n := by
  cases vals with
  | nil => exact ⟨h, b, rfl, hblk, rfl, fun n hn => by simp at hn⟩
  | cons x xs =>
    refine ⟨h.set p (some ((x :: xs) ++ b.drop (x :: xs).length)), _, ?_,
      get?_set_block h p b _ hblk, ?_, ?_⟩
    · simp only [Heap.fill, hblk, hlen, if_true]
    · rw [List.length_append, List.length_drop]
      omega
    · intro n hn
      rw [read_of_block _ p _ _ (get?_set_block h p b _ hblk) (Int.natCast_nonneg n),
        Int.toNat_natCast, List.get?_eq_getElem?, List.get?_eq_getElem?,
        List.getElem?_append_left hn]

theorem toNat_mul_le (a b : Int) : a.toNat * b.toNat ≤ (a * b).toNat := by
  rcases le_or_lt a 0 with ha | ha
  · rw [Int.toNat_of_nonpos ha]; omega
  · rcases le_or_lt b 0 with hb | hb
    · rw [Int.toNat_of_nonpos hb]; omega
    · have hab : 0 < a * b := mul_pos ha hb
      have h1 : ((a.toNat * b.toNat : Nat) : Int) = a * b := by
        push_cast
        rw [Int.toNat_of_nonneg (le_of_lt ha), Int.toNat_of_nonneg (le_of_lt hb)]
      omega

theorem hasCells_of_block {α : Type} (h : Heap α) (p : Nat) (b : Block α) (n : Nat)
    (hblk : h.get? p = some (some b)) (hn : n ≤ b.length) :
    Heap.hasCells h (some p) n = true := by
  simp only [Heap.hasCells, hblk, hn, decide_True, Bool.or_true]

/-! ### Well-formed matrices -/

theorem wellFormed_facts {α : Type} (h : Heap α) (m : Matrix)
    (hwf : Matrix.wellFormed h m = true) :
    m.d_num_rows * m.d_num_cols ≤ m.d_alloc_size
      ∧ fitsInt m.d_alloc_size
      ∧ (∀ p, m.d_mat = some p → p < h.length)
      ∧ (0 < m.d_alloc_size →
          ∃ p b, m.d_mat = some p ∧ h.get? p = some (some b)
            ∧ m.d_alloc_size ≤ (b.length : Int)) := by
  unfold Matrix.wellFormed at hwf
  rw [Bool.and_eq_true, Bool.and_eq_true, decide_eq_true_eq, decide_eq_true_eq] at hwf
  obtain ⟨⟨hinv, hfit⟩, hbuf⟩ := hwf
  refine ⟨hinv, hfit, ?_, ?_⟩
  · intro p hp
    rw [hp] at hbuf
    dsimp only at hbuf
    cases hget : h.get? p with
    | none =>
      rw [hget] at hbuf
      exact absurd hbuf (by simp)
    | some blk =>
      rw [List.get?_eq_getElem?] at hget
      exact (List.getElem?_eq_some.mp hget).1
  · intro hpos
    cases hmat : m.d_mat with
    | none =>
      rw [hmat] at hbuf
      have hle : m.d_alloc_size ≤ 0 := of_decide_eq_true hbuf
      omega
    | some p =>
      rw [hmat] at hbuf
      dsimp only at hbuf
      cases hget : h.get? p with
      | none =>
        rw [hget] at hbuf
        exact absurd hbuf (by simp)
      | some blk =>
        cases blk with
        | none =>
          rw [hget] at hbuf
          exact absurd hbuf (by simp)
        | some b =>
          rw [hget] at hbuf
          exact ⟨p, b, rfl, hget, of_decide_eq_true hbuf⟩

theorem cell_of_wellFormed {α : Type} (h : Heap α) (m : Matrix)
    (hwf : Matrix.wellFormed h m = true) (row col : Int)
    (hr0 : 0 ≤ row) (hr : row < m.numRows) (hc0 : 0 ≤ col) (hc : col < m.numColumns) :
    ∃ cell, Heap.read h ⟨m.d_mat, row * m.d_num_cols + col⟩ = some cell
      ∧ Matrix.value h m row col = cell := by
  obtain ⟨hinv, hfit, _, hbuf⟩ := wellFormed_facts h m hwf
  obtain ⟨_, _, hlo, hhi, _, hcell⟩ := item_in_storage false m row col hinv hfit hr0 hr hc0 hc
  have hpos : 0 < m.d_alloc_size := by omega
  obtain ⟨p, b, hmat, hblk, hcap⟩ := hbuf hpos
  obtain ⟨cell, hread⟩ := hcell α h p b hmat hblk hcap
  refine ⟨cell, hread, ?_⟩
  have hfits := fits_of_invariant m row col hinv hfit hr0 hr hc0 hc
  have hexact := flat_index_exact m row col hr0 hr hc0 hc hfits
  have hexact' : iadd (imul row m.d_num_cols) col = row * m.d_num_cols + col := hexact
  rw [value_eq_read, hexact', hread]
  rfl

theorem loadable_of_wellFormed {α : Type} (h extra : Heap α) (m : Matrix)
    (hwf : Matrix.wellFormed h m = true) (rows cols : Nat)
    (hrows : ∀ i : Nat, i < rows → (i : Int) < m.numRows)
    (hcols : ∀ k : Nat, k < cols → (k : Int) < m.numColumns) :
    Matrix.loadable (h ++ extra) m rows cols = true := by
  simp only [Matrix.loadable, List.all_eq_true, List.mem_range]
  intro i hi k hk
  obtain ⟨hinv, hfit, hin, _⟩ := wellFormed_facts h m hwf
  obtain ⟨cell, hread, _⟩ := cell_of_wellFormed h m hwf (i : Int) (k : Int)
    (Int.natCast_nonneg i) (hrows i hi) (Int.natCast_nonneg k) (hcols k hk)
  have hfits := fits_of_invariant m (i : Int) (k : Int) hinv hfit
    (Int.natCast_nonneg i) (hrows i hi) (Int.natCast_nonneg k) (hcols k hk)
  have hexact : iadd (imul (i : Int) m.d_num_cols) (k : Int)
      = (i : Int) * m.d_num_cols + (k : Int) :=
    flat_index_exact m (i : Int) (k : Int)
      (Int.natCast_nonneg i) (hrows i hi) (Int.natCast_nonneg k) (hcols k hk) hfits
  rw [item_const_unchecked, hexact]
  simp only [read_append h extra _ _ hin, hread, Option.isSome_some]

theorem wellFormed_of_block {α : Type} (h : Heap α) (m : Matrix) (p : Nat) (b : Block α)
    (hinv : m.d_num_rows * m.d_num_cols ≤ m.d_alloc_size) (hfit : fitsInt m.d_alloc_size)
    (hmat : m.d_mat = some p) (hblk : h.get? p = some (some b))
    (hcap : m.d_alloc_size ≤ (b.length : Int)) :
    Matrix.wellFormed h m = true := by
  unfold Matrix.wellFormed
  rw [hmat]
  dsimp only
  rw [hblk]
  simp only [hinv, hfit, hcap, decide_True, Bool.and_self]

/-! ### The fill forms of the product -/

theorem mult_eq_fill_ptr {α V : Type} (K : Kernels α V) (h : Heap α) (this other : Matrix) :
    Matrix.mult K h this other = K.mult.fill_ptr h this other none :=
  except_bind_pair_eta _

theorem fill_ptr_of_ok {σ A B R : Type} (k : Kernel σ A B R) (s s1 s2 : σ) (this : A)
    (other : B) (result : Option R) (r r' : R)
    (hsize : k.size_result s this other result = .ok (s1, r))
    (hbody : k.body s1 this other r = .ok (s2, r')) :
    k.fill_ptr s this other result = .ok (s2, some r') := by
  simp only [Kernel.fill_ptr, hsize, hbody, bind, Except.bind, pure, Except.pure]

theorem fill_ptr_of_body_error {σ A B R : Type} (k : Kernel σ A B R) (s s1 : σ) (this : A)
    (other : B) (result : Option R) (r : R) (e : Failure)
    (hsize : k.size_result s this other result = .ok (s1, r))
    (hbody : k.body s1 this other r = .error e) :
    k.fill_ptr s this other result = .error e := by
  simp only [Kernel.fill_ptr, hsize, hbody, bind, Except.bind]

theorem fill_ptr_of_size_error {σ A B R : Type} (k : Kernel σ A B R) (s : σ) (this : A)
    (other : B) (result : Option R) (e : Failure)
    (hsize : k.size_result s this other result = .error e) :
    k.fill_ptr s this other result = .error e := by
  simp only [Kernel.fill_ptr, hsize, bind, Except.bind]

section ProductFacts

variable {α : Type} [Add α] [Mul α] [Zero α]

theorem multBody_ok (h h' : Heap α) (this other result : Matrix)
    (hd : result.d_distributed = this.d_distributed)
    (hother : other.d_distributed = false)
    (hshape : this.numColumns = other.numRows)
    (hcells : h.hasCells result.d_mat (this.numRows.toNat * other.numColumns.toNat) = true)
    (hloads : this.loadable h this.numRows.toNat this.numColumns.toNat = true
      ∧ other.loadable h this.numColumns.toNat other.numColumns.toNat = true)
    (hfill : h.fill result.d_mat (productValues h this other) = some h') :
    multBody h this other result = .ok (h', result) := by
  rw [hshape] at hloads
  simp only [multBody, precondition, Matrix.distributed, hd, hother, hshape, hfill, hcells,
    hloads.1, hloads.2, beq_self_eq_true, Bool.not_false, Bool.not_true, Bool.and_self,
    Bool.or_true, decide_True, if_true, Bool.false_eq_true, if_false, bind, Except.bind,
    pure, Except.pure]

theorem multBody_fails (h : Heap α) (this other result : Matrix)
    (hd : result.d_distributed = this.d_distributed)
    (hbad : other.d_distributed = true ∨ this.numColumns ≠ other.numRows) :
    ∃ e, multBody h this other result = .error (.assertion e) := by
  cases hother : other.d_distributed with
  | true =>
    exact ⟨_, by
      simp only [multBody, precondition, Matrix.distributed, hd, hother,
        beq_self_eq_true, Bool.not_true, if_true, bind, Except.bind]
      rfl⟩
  | false =>
    have hshape : this.numColumns ≠ other.numRows := by
      rcases hbad with hb | hb
      · rw [hother] at hb; cases hb
      · exact hb
    exact ⟨_, by
      simp only [multBody, precondition, Matrix.distributed, hd, hother,
        beq_self_eq_true, Bool.not_false, if_true, bind, Except.bind, hshape,
        decide_False]
      rfl⟩

theorem productValues_get (h : Heap α) (this other : Matrix) (i j : Int)
    (hi0 : 0 ≤ i) (hi : i < this.numRows) (hj0 : 0 ≤ j) (hj : j < other.numColumns) :
    (i * other.numColumns + j).toNat < (productValues h this other).length
    ∧ (productValues h this other).get? (i * other.numColumns + j).toNat
        = some (dot this.numColumns.toNat (fun k => this.value h i k)
            (fun k => other.value h k j)) := by
  have hc0 : 0 ≤ other.numColumns := le_trans hj0 (le_of_lt hj)
  have hidx : i * other.numColumns + j
      = ((i.toNat * other.numColumns.toNat + j.toNat : Nat) : Int) := by
    push_cast
    rw [Int.toNat_of_nonneg hi0, Int.toNat_of_nonneg hj0, Int.toNat_of_nonneg hc0]
  have hjn : j.toNat < other.numColumns.toNat := by omega
  have hin : i.toNat < this.numRows.toNat := by omega
  have hlt : i.toNat * other.numColumns.toNat + j.toNat
      < this.numRows.toNat * other.numColumns.toNat := by
    have h1 : (i.toNat + 1) * other.numColumns.toNat
        ≤ this.numRows.toNat * other.numColumns.toNat :=
      Nat.mul_le_mul_right _ hin
    have h2 : (i.toNat + 1) * other.numColumns.toNat
        = i.toNat * other.numColumns.toNat + other.numColumns.toNat := by ring
    omega
  have hdiv : (i.toNat * other.numColumns.toNat + j.toNat) / other.numColumns.toNat
      = i.toNat := by
    apply Nat.div_eq_of_lt_le
    · omega
    · have h2 : (i.toNat + 1) * other.numColumns.toNat
          = i.toNat * other.numColumns.toNat + other.numColumns.toNat := by ring
      omega
  have hmod : (i.toNat * other.numColumns.toNat + j.toNat) % other.numColumns.toNat
      = j.toNat := by
    rw [Nat.add_comm, Nat.add_mul_mod_self_right, Nat.mod_eq_of_lt hjn]
  rw [hidx, Int.toNat_natCast]
  constructor
  · simp only [productValues, List.length_map, List.length_range]
    exact hlt
  · simp only [productValues, List.get?_eq_getElem?, List.getElem?_map,
      List.getElem?_range hlt, Option.map_some', hdiv, hmod,
      Int.toNat_of_nonneg hi0, Int.toNat_of_nonneg hj0]

end ProductFacts

section ProductClaim

variable {α : Type} [Add α] [Mul α] [Zero α]

theorem mult_sizes_result (h : Heap α) (this other : Matrix) :
    (∃ e, (multKernel : Kernel (Heap α) Matrix Matrix Matrix).size_result h this other none
        = .error (.assertion e))
    ∨ ∃ h1 r, (multKernel : Kernel (Heap α) Matrix Matrix Matrix).size_result h this other
          none = .ok (h1, r)
        ∧ r.d_distributed = this.d_distributed := by
  by_cases hdims : 0 < this.numRows ∧ 0 < other.numColumns
  · right
    by_cases hpos : 0 < imul this.numRows other.numColumns
    · exact ⟨_, _, create_pos this.d_num_procs h _ _ this.distributed hdims.1 hdims.2 hpos,
        rfl⟩
    · exact ⟨_, _, create_nonpos this.d_num_procs h _ _ this.distributed hdims.1 hdims.2
        (not_lt.mp hpos), rfl⟩
  · left
    exact create_refuses this.d_num_procs h _ _ this.distributed hdims

/-- C13, as amended: for a well-formed matrix `A` with `A.numRows() > 0` and a
well-formed undistributed matrix `B` with `B.numColumns() > 0` and
`A.numColumns() == B.numRows()`, such that `A.numRows() * B.numColumns()` fits
in an `int`, `A.mult(B)` succeeds and returns a well-formed matrix with
`A.numRows()` rows, `B.numColumns()` columns and the distribution of `A`,
whose element (`i`, `j`) is the sum over `k` of `A(i, k) * B(k, j)`, each
factor being the content of a cell of its operand; and `mult` stops on a
violated precondition when `B` is distributed or
`A.numColumns() != B.numRows()`. -/
theorem mult_product {V : Type} (debug : Bool) (K : Kernels α V)
    (hK : K.mult = multKernel) (h : Heap α) (A B : Matrix) :
    ((B.distributed = false ∧ A.numColumns = B.numRows) →
      A.wellFormed h = true → B.wellFormed h = true →
      0 < A.numRows → 0 < B.numColumns →
      fitsInt (A.numRows * B.numColumns) →
      ∃ h' R, Matrix.mult K h A B = .ok (h', some R)
        ∧ R.numRows = A.numRows ∧ R.numColumns = B.numColumns
        ∧ R.distributed = A.distributed
        ∧ R.wellFormed h' = true
        ∧ ∀ i j, 0 ≤ i → i < A.numRows → 0 ≤ j → j < B.numColumns →
            Matrix.item_const debug R i j = .ok ⟨R.d_mat, i * R.numColumns + j⟩
            ∧ Heap.read h' ⟨R.d_mat, i * R.numColumns + j⟩
                = some (dot A.numColumns.toNat (fun k => A.value h i k)
                    (fun k => B.value h k j))
            ∧ ∀ k : Int, 0 ≤ k → k < A.numColumns →
                (∃ a, Heap.read h ⟨A.d_mat, i * A.numColumns + k⟩ = some a
                    ∧ A.value h i k = a)
                ∧ (∃ b, Heap.read h ⟨B.d_mat, k * B.numColumns + j⟩ = some b
                    ∧ B.value h k j = b))
    ∧ ((B.distributed = true ∨ A.numColumns ≠ B.numRows) →
        ∃ e, Matrix.mult K h A B = .error (.assertion e)) := by
  constructor
  · rintro ⟨hB, hshape⟩ hwfA hwfB hr hc hfit
    have hprod : imul A.numRows B.numColumns = A.numRows * B.numColumns :=
      imul_of_fits _ _ hfit
    have hpos : 0 < imul A.numRows B.numColumns := by
      rw [hprod]; exact mul_pos hr hc
    obtain ⟨_, _, hinA, _⟩ := wellFormed_facts h A hwfA
    obtain ⟨_, _, hinB, _⟩ := wellFormed_facts h B hwfB
    have hsize := create_pos A.d_num_procs h A.numRows B.numColumns A.distributed hr hc hpos
    have hblk : (h ++ [some (List.replicate (imul A.numRows B.numColumns).toNat
        (none : Option α))]).get? h.length
        = some (some (List.replicate (imul A.numRows B.numColumns).toNat none)) := by
      rw [List.get?_eq_getElem?, List.getElem?_append_right (le_refl _)]
      simp
    have hn : A.numRows.toNat * B.numColumns.toNat
        ≤ (List.replicate (imul A.numRows B.numColumns).toNat
            (none : Option α)).length := by
      rw [List.length_replicate, hprod]
      exact toNat_mul_le _ _
    have hlen : (productValues (h ++ [some (List.replicate
          (imul A.numRows B.numColumns).toNat (none : Option α))]) A B).length
        ≤ (List.replicate (imul A.numRows B.numColumns).toNat
            (none : Option α)).length := by
      simp only [productValues, List.length_map, List.length_range]
      exact hn
    obtain ⟨h', b', hfill, hget', hlen', hread⟩ := fill_spec _ h.length _ _ hblk hlen
    have hcells := hasCells_of_block _ h.length _ _ hblk hn
    have hloadA := loadable_of_wellFormed h
      [some (List.replicate (imul A.numRows B.numColumns).toNat none)] A hwfA
      A.numRows.toNat A.numColumns.toNat (fun i hi => by omega) (fun k hk => by omega)
    have hloadB := loadable_of_wellFormed h
      [some (List.replicate (imul A.numRows B.numColumns).toNat none)] B hwfB
      A.numColumns.toNat B.numColumns.toNat
      (fun i hi => by rw [← hshape]; omega) (fun k hk => by omega)
    have hbody := multBody_ok _ h' A B
      { d_mat := some h.length, d_num_rows := A.numRows, d_num_cols := B.numColumns,
        d_alloc_size := imul A.numRows B.numColumns, d_distributed := A.distributed,
        d_num_procs := A.d_num_procs, d_owns_data := true } rfl hB hshape hcells
      ⟨hloadA, hloadB⟩ hfill
    refine ⟨h',
      { d_mat := some h.length, d_num_rows := A.numRows, d_num_cols := B.numColumns,
        d_alloc_size := imul A.numRows B.numColumns, d_distributed := A.distributed,
        d_num_procs := A.d_num_procs, d_owns_data := true }, ?_, rfl, rfl, rfl, ?_, ?_⟩
    · rw [mult_eq_fill_ptr, hK]
      exact fill_ptr_of_ok _ _ _ _ _ _ _ _ _ hsize hbody
    · refine wellFormed_of_block h' _ h.length b' ?_ (fitsInt_wrapInt _) rfl hget' ?_
      · exact le_of_eq hprod.symm
      · rw [hlen', List.length_replicate]
        show imul A.numRows B.numColumns ≤ _
        omega
    · intro i j hi0 hi hj0 hj
      obtain ⟨hlt, hget⟩ := productValues_get
        (h ++ [some (List.replicate (imul A.numRows B.numColumns).toNat none)])
        A B i j hi0 hi hj0 hj
      have hitem := item_in_range debug
        { d_mat := some h.length, d_num_rows := A.numRows, d_num_cols := B.numColumns,
          d_alloc_size := imul A.numRows B.numColumns, d_distributed := A.distributed,
          d_num_procs := A.d_num_procs, d_owns_data := true } i j hi0 hi hj0 hj
      rw [flat_index_exact
        { d_mat := some h.length, d_num_rows := A.numRows, d_num_cols := B.numColumns,
          d_alloc_size := imul A.numRows B.numColumns, d_distributed := A.distributed,
          d_num_procs := A.d_num_procs, d_owns_data := true }
        i j hi0 hi hj0 hj hfit] at hitem
      refine ⟨hitem, ?_, ?_⟩
      · have hidx0 : 0 ≤ i * B.numColumns + j :=
          add_nonneg (mul_nonneg hi0 (le_trans hj0 (le_of_lt hj))) hj0
        have hr := hread _ hlt
        rw [Int.toNat_of_nonneg hidx0, hget] at hr
        simp only [value_append h _ A _ _ hinA, value_append h _ B _ _ hinB] at hr
        exact hr
      · intro k hk0 hk
        obtain ⟨a, ha, hva⟩ := cell_of_wellFormed h A hwfA i k hi0 hi hk0 hk
        obtain ⟨b, hb, hvb⟩ := cell_of_wellFormed h B hwfB k j hk0
          (by rw [← hshape]; exact hk) hj0 hj
        exact ⟨⟨a, ha, hva⟩, ⟨b, hb, hvb⟩⟩
  · intro hbad
    rcases mult_sizes_result h A B with ⟨e, he⟩ | ⟨h1, r, hsize, hd⟩
    · refine ⟨e, ?_⟩
      rw [mult_eq_fill_ptr, hK]
      exact fill_ptr_of_size_error _ _ _ _ _ _ he
    · obtain ⟨e, he⟩ := multBody_fails h1 A B r hd hbad
      refine ⟨e, ?_⟩
      rw [mult_eq_fill_ptr, hK]
      exact fill_ptr_of_body_error _ _ _ _ _ _ _ _ hsize he

/-- The product at concrete matrices: the distributed 2 x 3 matrix
[1 2 3; 4 5 6] times the undistributed 3 x 2 matrix [1 0; 0 1; 2 3] is the
distributed 2 x 2 matrix [7 11; 16 23] in a fresh block, and the product of
the 2 x 3 matrix with itself is refused. -/
theorem mult_product_witness :
    (sampleKernels.mult = multKernel
      ∧ (sampleRight.distributed = false ∧ sampleLeft.numColumns = sampleRight.numRows)
      ∧ sampleLeft.wellFormed sampleHeap2 = true
      ∧ sampleRight.wellFormed sampleHeap2 = true
      ∧ 0 < sampleLeft.numRows ∧ 0 < sampleRight.numColumns
      ∧ fitsInt (sampleLeft.numRows * sampleRight.numColumns))
    ∧ Matrix.mult sampleKernels sampleHeap2 sampleLeft sampleRight
        = .ok (sampleHeap2 ++ [some [some 7, some 11, some 16, some 23]],
               some { d_mat := some 2, d_num_rows := 2, d_num_cols := 2, d_alloc_size := 4,
                      d_distributed := true, d_num_procs := 2, d_owns_data := true })
    ∧ (∃ h' R, Matrix.mult sampleKernels sampleHeap2 sampleLeft sampleRight
          = .ok (h', some R)
        ∧ R.numRows = sampleLeft.numRows ∧ R.numColumns = sampleRight.numColumns
        ∧ R.distributed = sampleLeft.distributed
        ∧ R.wellFormed h' = true
        ∧ ∀ i j, 0 ≤ i → i < sampleLeft.numRows → 0 ≤ j → j < sampleRight.numColumns →
            Matrix.item_const true R i j = .ok ⟨R.d_mat, i * R.numColumns + j⟩
            ∧ Heap.read h' ⟨R.d_mat, i * R.numColumns + j⟩
                = some (dot sampleLeft.numColumns.toNat
                    (fun k => sampleLeft.value sampleHeap2 i k)
                    (fun k => sampleRight.value sampleHeap2 k j))
            ∧ ∀ k : Int, 0 ≤ k → k < sampleLeft.numColumns →
                (∃ a, Heap.read sampleHeap2
                        ⟨sampleLeft.d_mat, i * sampleLeft.numColumns + k⟩ = some a
                    ∧ sampleLeft.value sampleHeap2 i k = a)
                ∧ (∃ b, Heap.read sampleHeap2
                        ⟨sampleRight.d_mat, k * sampleRight.numColumns + j⟩ = some b
                    ∧ sampleRight.value sampleHeap2 k j = b))
    ∧ (∃ e, Matrix.mult sampleKernels sampleHeap2 sampleLeft sampleLeft
          = .error (.assertion e)) :=
  ⟨⟨rfl, ⟨rfl, rfl⟩, rfl, rfl, by decide, by decide, by decide⟩, rfl,
   (mult_product true sampleKernels rfl sampleHeap2 sampleLeft sampleRight).1
     ⟨rfl, rfl⟩ rfl rfl (by decide) (by decide) (by decide),
   (mult_product true sampleKernels rfl sampleHeap2 sampleLeft sampleLeft).2
     (Or.inl rfl)⟩

theorem sampleWide_wellFormed :
    sampleTall.wellFormed sampleHeapWide = true
      ∧ sampleWide.wellFormed sampleHeapWide = true := by
  constructor
  · exact wellFormed_of_block sampleHeapWide sampleTall 0 (List.replicate 65536 (some 1))
      (by decide) (by decide) rfl rfl (by rw [List.length_replicate]; decide)
  · exact wellFormed_of_block sampleHeapWide sampleWide 1 (List.replicate 65536 (some 1))
      (by decide) (by decide) rfl rfl (by rw [List.length_replicate]; decide)

/-- A load through a null buffer is not a product: with the ill-formed 2 x 3
record `sampleNull` as left operand, `mult` leaves defined behaviour at the
first load. -/
theorem mult_load_through_null_buffer :
    sampleNull.wellFormed sampleHeap2 = false
    ∧ Matrix.mult sampleKernels sampleHeap2 sampleNull sampleRight
        = .error (.undefined "load outside an operand buffer") :=
  ⟨rfl, rfl⟩

/-- The claim C13 as first stated fails at three inputs that meet all it asks
for (`B` undistributed, `A.numColumns() == B.numRows()`, both matrices
well-formed).  With an empty `A` (0 x 3) the result cannot be built: the shape
constructor refuses `num_rows == 0`.  With an empty `B` (3 x 0) it refuses
`num_cols == 0`.  With `A` of 65536 x 1 and `B` of 1 x 65536 the `int` size of
the result wraps to 0, no buffer is allocated and the first store leaves the
result buffer.  None of the calls succeeds. -/
theorem mult_fails_outside_amendment :
    ((sampleRight.distributed = false ∧ sampleEmpty.numColumns = sampleRight.numRows
        ∧ sampleEmpty.wellFormed sampleHeap2 = true
        ∧ sampleRight.wellFormed sampleHeap2 = true)
      ∧ Matrix.mult sampleKernels sampleHeap2 sampleEmpty sampleRight
          = .error (.assertion "num_rows > 0")
      ∧ ¬ ∃ s, Matrix.mult sampleKernels sampleHeap2 sampleEmpty sampleRight = .ok s)
    ∧ ((sampleNoColumns.distributed = false
        ∧ sampleLeft.numColumns = sampleNoColumns.numRows
        ∧ sampleLeft.wellFormed sampleHeap2 = true
        ∧ sampleNoColumns.wellFormed sampleHeap2 = true)
      ∧ Matrix.mult sampleKernels sampleHeap2 sampleLeft sampleNoColumns
          = .error (.assertion "num_cols > 0")
      ∧ ¬ ∃ s, Matrix.mult sampleKernels sampleHeap2 sampleLeft sampleNoColumns = .ok s)
    ∧ ((sampleWide.distributed = false ∧ sampleTall.numColumns = sampleWide.numRows
        ∧ sampleTall.wellFormed sampleHeapWide = true
        ∧ sampleWide.wellFormed sampleHeapWide = true)
      ∧ Matrix.mult sampleKernels sampleHeapWide sampleTall sampleWide
          = .error (.undefined "store outside the result buffer")
      ∧ ¬ ∃ s, Matrix.mult sampleKernels sampleHeapWide sampleTall sampleWide = .ok s) := by
  have h1 : Matrix.mult sampleKernels sampleHeap2 sampleEmpty sampleRight
      = .error (.assertion "num_rows > 0") := rfl
  have h2 : Matrix.mult sampleKernels sampleHeapWide sampleTall sampleWide
      = .error (.undefined "store outside the result buffer") := rfl
  have h3 : Matrix.mult sampleKernels sampleHeap2 sampleLeft sampleNoColumns
      = .error (.assertion "num_cols > 0") := rfl
  refine ⟨⟨⟨rfl, rfl, rfl, rfl⟩, h1, ?_⟩, ⟨⟨rfl, rfl, rfl, rfl⟩, h3, ?_⟩,
    ⟨⟨rfl, rfl, sampleWide_wellFormed.1, sampleWide_wellFormed.2⟩, h2, ?_⟩⟩
  · rintro ⟨s, hs⟩
    rw [h1] at hs
    cases hs
  · rintro ⟨s, hs⟩
    rw [h3] at hs
    cases hs
  · rintro ⟨s, hs⟩
    rw [h2] at hs
    cases hs

end ProductClaim

end CAROM
